import Mathlib

/-!
Shallow embedding of the entity type system of calm-dsl
(`calm/dsl/builtins/models/entity.py`): attribute validation, the
compile/decompile pipeline between in-memory entity definitions and wire
mappings, and the description-embedded metadata side channel.

Python strings are modelled as `List Char`, Python dicts as ordered
association lists (Python 3.7+ dicts preserve insertion order), raised
exceptions as an `Except Err` result, and the mutation of
`cls.__name__` performed by `compile` as an explicitly returned updated
entity state.
-/

namespace CalmDsl

/-- Python strings, modelled as lists of characters. -/
abbrev Str := List Char

/-- Literal helper: the character list of a Lean string literal. -/
def chars (s : String) : Str := s.data

/-- The newline character as a one-character string. -/
def nl : Str := [Char.ofNat 10]

/-- `sep_string` of `EntityType.compile` / `EntityType.decompile` /
`EntityType.get_name`: the fixed metadata marker. -/
def sepString : Str := chars ("### Calm DSL Metadata/Hints (Do not edit/change)")

/-- Python `str.find`: index of the first occurrence of `pat` in `s`
(`none` models the `-1` result). -/
def findSub : Str → Str → Option Nat
  | _, [] => some 0
  | [], _ :: _ => none
  | c :: rest, pat =>
    if pat.isPrefixOf (c :: rest) then some 0
    else (findSub rest pat).map (· + 1)

/-- Number of (possibly overlapping) occurrence positions of `pat` in `s`;
only its comparison with `1` is used (the marker "appears at most once"). -/
def countSub : Str → Str → Nat
  | [], _ => 0
  | c :: rest, pat => (if pat.isPrefixOf (c :: rest) then 1 else 0) + countSub rest pat

theorem isPrefixOf_append_of_le {pat s : Str} (t : Str) (hle : pat.length ≤ s.length) :
    pat.isPrefixOf (s ++ t) = pat.isPrefixOf s := by
  induction pat generalizing s with
  | nil => simp [List.isPrefixOf]
  | cons p ps ih =>
    cases s with
    | nil => simp at hle
    | cons a as =>
      simp only [List.cons_append, List.isPrefixOf, List.append_eq]
      rw [ih (by simpa using Nat.le_of_succ_le_succ hle)]

/-- Positions inside `a` of occurrences of `pat` in `a ++ b`. -/
def auxCount (pat : Str) : Str → Str → Nat
  | [], _ => 0
  | c :: rest, b => (if pat.isPrefixOf (c :: rest ++ b) then 1 else 0) + auxCount pat rest b

theorem countSub_append (a b pat : Str) :
    countSub (a ++ b) pat = auxCount pat a b + countSub b pat := by
  induction a with
  | nil => simp [auxCount]
  | cons c rest ih => simp [countSub, auxCount, ih]; omega

theorem auxCount_append_stable (pat a b : Str) :
    auxCount pat a (pat ++ b) = auxCount pat a pat := by
  induction a with
  | nil => rfl
  | cons c rest ih =>
    simp only [auxCount, ih]
    have h1 : pat.isPrefixOf (c :: rest ++ (pat ++ b)) = pat.isPrefixOf (c :: rest ++ pat) := by
      rw [show c :: rest ++ (pat ++ b) = (c :: rest ++ pat) ++ b by simp]
      exact isPrefixOf_append_of_le b (by simp; omega)
    rw [h1]

theorem countSub_short {s pat : Str} (h : s.length < pat.length) : countSub s pat = 0 := by
  induction s with
  | nil => rfl
  | cons c rest ih =>
    have hlen : (c :: rest).length = rest.length + 1 := rfl
    have hpre : pat.isPrefixOf (c :: rest) = false := by
      cases hx : pat.isPrefixOf (c :: rest) with
      | true =>
        have hl := List.IsPrefix.length_le (List.isPrefixOf_iff_prefix.mp hx)
        omega
      | false => rfl
    have hr : rest.length < pat.length := by omega
    simp only [countSub, hpre, ih hr]
    simp

/-- If `A` ends with `pat`, contains exactly one occurrence, and no further
occurrence starts after the first character of the trailing `pat ++ B`,
then `A ++ B` still contains exactly one occurrence. -/
theorem countSub_append_one {A0 pat B : Str} (hpat : pat ≠ [])
    (hone : countSub (A0 ++ pat) pat = 1)
    (hnone : countSub (pat.drop 1 ++ B) pat = 0) :
    countSub (A0 ++ pat ++ B) pat = 1 := by
  cases pat with
  | nil => exact absurd rfl hpat
  | cons p ps =>
    have hA : countSub (A0 ++ (p :: ps)) (p :: ps)
        = auxCount (p :: ps) A0 (p :: ps) + countSub (p :: ps) (p :: ps) := countSub_append ..
    have hself : countSub (p :: ps) (p :: ps) = 1 + countSub ps (p :: ps) := by
      simp [countSub, List.isPrefixOf_iff_prefix]
    have hps : countSub ps (p :: ps) = 0 := countSub_short (by simp)
    have haux : auxCount (p :: ps) A0 (p :: ps) = 0 := by omega
    have hABfull : A0 ++ (p :: ps) ++ B = A0 ++ ((p :: ps) ++ B) := by simp
    rw [hABfull, countSub_append]
    have hstable : auxCount (p :: ps) A0 ((p :: ps) ++ B)
        = auxCount (p :: ps) A0 (p :: ps) := by
      have := auxCount_append_stable (p :: ps) A0 B
      simpa using this
    have hBB : countSub ((p :: ps) ++ B) (p :: ps)
        = 1 + countSub (ps ++ B) (p :: ps) := by
      have hpre2 : (p :: ps).isPrefixOf ((p :: ps) ++ B) = true := by
        simp [List.isPrefixOf_iff_prefix]
      calc countSub ((p :: ps) ++ B) (p :: ps)
          = (if (p :: ps).isPrefixOf ((p :: ps) ++ B) then 1 else 0)
              + countSub (ps ++ B) (p :: ps) := rfl
        _ = 1 + countSub (ps ++ B) (p :: ps) := by rw [hpre2]; simp
    have hdrop : countSub (ps ++ B) (p :: ps) = 0 := by simpa using hnone
    rw [hstable, haux, hBB, hdrop]

/-- `str.find` returning `i` means: the text up to and including the match is
`take i ++ pat`, and it holds exactly one occurrence. -/
theorem findSub_spec {s pat : Str} {i : Nat} (hpat : pat ≠ [])
    (h : findSub s pat = some i) :
    s.take (i + pat.length) = s.take i ++ pat ∧
      countSub (s.take (i + pat.length)) pat = 1 := by
  induction s generalizing i with
  | nil =>
    cases pat with
    | nil => exact absurd rfl hpat
    | cons p ps => simp [findSub] at h
  | cons c rest ih =>
    cases pat with
    | nil => exact absurd rfl hpat
    | cons p ps =>
      simp only [findSub] at h
      by_cases hpre : (p :: ps).isPrefixOf (c :: rest)
      · rw [if_pos hpre] at h
        cases h
        have hp := List.isPrefixOf_iff_prefix.mp hpre
        obtain ⟨t, ht⟩ := hp
        constructor
        · rw [← ht]
          rw [show (0 : Nat) + (p :: ps).length = (p :: ps).length by omega]
          rw [List.take_left]
          simp
        · rw [← ht]
          rw [show (0 : Nat) + (p :: ps).length = (p :: ps).length by omega]
          rw [List.take_left]
          have hself : countSub (p :: ps) (p :: ps) = 1 + countSub ps (p :: ps) := by
            simp [countSub, List.isPrefixOf_iff_prefix]
          rw [hself, countSub_short (show ps.length < (p :: ps).length by simp)]
      · rw [if_neg hpre] at h
        cases hrec : findSub rest (p :: ps) with
        | none => rw [hrec] at h; simp at h
        | some j =>
          rw [hrec] at h
          simp at h
          subst h
          obtain ⟨h1, h2⟩ := ih hrec
          constructor
          · show (c :: rest).take (j + 1 + (p :: ps).length) = (c :: rest).take (j + 1) ++ (p :: ps)
            rw [show j + 1 + (p :: ps).length = (j + (p :: ps).length) + 1 by omega]
            simp only [List.take_succ_cons, List.cons_append]
            rw [h1]
          · show countSub ((c :: rest).take (j + 1 + (p :: ps).length)) (p :: ps) = 1
            rw [show j + 1 + (p :: ps).length = (j + (p :: ps).length) + 1 by omega]
            simp only [List.take_succ_cons]
            simp only [countSub]
            rw [h2]
            have : (p :: ps).isPrefixOf (c :: rest.take (j + (p :: ps).length)) = false := by
              by_contra hc
              have htrue : (p :: ps).isPrefixOf (c :: rest.take (j + (p :: ps).length)) = true := by
                cases hx : (p :: ps).isPrefixOf (c :: rest.take (j + (p :: ps).length)) with
                | false => exact absurd hx hc
                | true => rfl
              have h3 := List.isPrefixOf_iff_prefix.mp htrue
              have h4 : (c :: rest.take (j + (p :: ps).length)) <+: (c :: rest) := by
                exact List.cons_prefix_cons.mpr ⟨rfl, List.take_prefix _ _⟩
              exact hpre (List.isPrefixOf_iff_prefix.mpr (h3.trans h4))
            rw [this]
            simp

/-! ### The metadata codec

Modelled from the spec: the YAML text codec (ruamel.yaml) is an external
collaborator ("YAML/JSON text encoding primitives themselves" are excluded
by spec section 1; spec section 3 gives the Metadata Record as
`\x7bdisplay_name, dsl_name?\x7d` under the root key `calm_dsl_metadata`).
The concrete codec below parses/re-emits exactly that two-field block;
any other text (including an absent or empty `calm_dsl_metadata` mapping,
on which the Python code would fail with an exception caught by the
`try` blocks) decodes to `none`, which models a parse failure. -/

/-- The metadata record parsed out of a description tail. -/
structure MetaRec where
  display_name : Option Str
  dsl_name : Option Str
  deriving DecidableEq, Repr

/-- Split a string at newline characters (Python `str.splitlines`, as far as
the codec needs it). -/
def splitLines (s : Str) : List Str :=
  let rec go : Str → Str → List Str
    | [], acc => [acc.reverse]
    | c :: rest, acc =>
      if c = Char.ofNat 10 then acc.reverse :: go rest []
      else go rest (c :: acc)
  go s []

def mdRootLine : Str := chars ("calm_dsl_metadata:")
def displayNameKey : Str := chars ("  display_name: ")
def dslNameKey : Str := chars ("  dsl_name: ")

/-- Modelled from the spec: YAML serialization of the metadata record, with
keys in insertion order (`display_name` first, then `dsl_name`). -/
def mdEncode (md : MetaRec) : Str :=
  mdRootLine ++ nl ++
  (match md.display_name with
   | some dn => displayNameKey ++ dn ++ nl
   | none => []) ++
  (match md.dsl_name with
   | some dn => dslNameKey ++ dn ++ nl
   | none => [])

/-- Parse the field lines following the `calm_dsl_metadata:` root line. -/
def mdFields : List Str → MetaRec → Option MetaRec
  | [], md => if md.display_name = none ∧ md.dsl_name = none then none else some md
  | l :: rest, md =>
    if l = [] then mdFields rest md
    else if displayNameKey.isPrefixOf l then
      mdFields rest { md with display_name := some (l.drop displayNameKey.length) }
    else if dslNameKey.isPrefixOf l then
      mdFields rest { md with dsl_name := some (l.drop dslNameKey.length) }
    else none

/-- Modelled from the spec: parse a metadata tail. `none` models any
exception raised by `yaml.load` / the `calm_dsl_metadata` key lookup in the
Python `try` blocks. -/
def mdDecode (s : Str) : Option MetaRec :=
  let rec skipBlank : List Str → List Str
    | [] => []
    | l :: rest => if l = [] then skipBlank rest else l :: rest
  match skipBlank (splitLines s) with
  | [] => none
  | l :: rest =>
    if l = mdRootLine then mdFields rest { display_name := none, dsl_name := none }
    else none

/-! ### Values

Python runtime values flowing through compile/decompile: strings, numbers,
booleans, `None`, lists, dicts, Variable/Action/Descriptor member objects
(classes recognized by capability, cf. `_validate` and `update_attrs`),
`__is_object__` values (ObjectDict), provider-spec wrappers, and nested
entity classes produced by `EntityType.decompile`. -/

/-- A Variable/Action/Descriptor-capable member object, recognized by
runtime capability:
* `isVariable` models `isinstance(value, VariableType)`;
* `isAction` models `isinstance(value, ActionType)`;
* `isDescriptorInst` models `isinstance(type(value), DescriptorType)`;
* `hasException` models `getattr(value, "__exception__", None)` being truthy.
The Variable/Action/Descriptor classes themselves live in repository
modules not provided under src/, so members are modelled by these
capability flags (spec section 2: "recognized not by name but by their
runtime capability"). -/
structure Member where
  isVariable : Bool
  isAction : Bool
  isDescriptorInst : Bool
  hasException : Bool
  name : Str
  deriving DecidableEq, Repr

inductive Value where
  | vstr (s : Str)
  | vint (n : Int)
  | vbool (b : Bool)
  | vnone
  | vlist (xs : List Value)
  | vdictV (fs : List (Str × Value))
  | vmember (m : Member)
  | vobjectVal (payload : List (Str × Value))
  | vprovider (w : Value)
  | ventity (ename : Str) (edoc : Option Str) (eattrs : List (Str × Value))
  deriving Repr

/-- Python truthiness of a value. -/
def isTruthy : Value → Bool
  | .vstr s => s ≠ []
  | .vint n => n ≠ 0
  | .vbool b => b
  | .vnone => false
  | .vlist xs => !xs.isEmpty
  | .vdictV fs => !fs.isEmpty
  | _ => true

/-- Python `value == s` for a string literal `s`: true only for an equal
string (a non-string compares unequal to a string). -/
def eqStr (v : Value) (s : Str) : Bool :=
  match v with
  | .vstr t => t = s
  | _ => false

/-- Python `str(v)` for the scalar values the pipeline can reach (used by
the builtin-constructor branch of `decompile` and for identifier coercion;
container/object reprs are simplified renderings, not reached by any claim). -/
def pyStrCoerce : Value → Str
  | .vstr s => s
  | .vint n => chars (toString n)
  | .vbool true => chars ("True")
  | .vbool false => chars ("False")
  | .vnone => chars ("None")
  | .vmember m => m.name
  | .ventity n _ _ => n
  | _ => chars ("<object>")

/-- Python iteration `for x in v` (list → elements, str → one-character
strings, dict → keys); numbers, `None` and class objects are not iterable. -/
def pyIter : Value → Option (List Value)
  | .vlist xs => some xs
  | .vstr s => some (s.map (fun c => Value.vstr [c]))
  | .vdictV fs => some (fs.map (fun p => Value.vstr p.1))
  | _ => none

/-! ### Ordered dictionaries as association lists -/

/-- Ordered mapping (Python dict): first entry for a key wins on lookup. -/
abbrev AList (β : Type) := List (Str × β)

def alGet {β : Type} : AList β → Str → Option β
  | [], _ => none
  | (k, v) :: rest, key => if k = key then some v else alGet rest key

def alHasKey {β : Type} (l : AList β) (key : Str) : Bool :=
  (alGet l key).isSome

/-- Python `d[k] = v`: replace in place if present, else append at the end. -/
def alSet {β : Type} : AList β → Str → β → AList β
  | [], key, v => [(key, v)]
  | (k, w) :: rest, key, v =>
    if k = key then (k, v) :: rest else (k, w) :: alSet rest key v

/-- Python `d.setdefault(k, v)`: first write wins. -/
def alSetdefault {β : Type} (l : AList β) (key : Str) (v : β) : AList β :=
  if alHasKey l key then l else l ++ [(key, v)]

/-- Python `d.pop(k, default)`: the removed value (if any) and the rest. -/
def alPop {β : Type} : AList β → Str → Option β × AList β
  | [], _ => (none, [])
  | (k, v) :: rest, key =>
    if k = key then (some v, rest)
    else
      let r := alPop rest key
      (r.1, (k, v) :: r.2)

theorem alGet_alPop_ne {β : Type} (l : AList β) (key key2 : Str) (h : key2 ≠ key) :
    alGet (alPop l key).2 key2 = alGet l key2 := by
  induction l with
  | nil => rfl
  | cons p rest ih =>
    obtain ⟨k, v⟩ := p
    by_cases hk : k = key
    · subst hk
      have h1 : alPop ((k, v) :: rest) k = (some v, rest) := by simp [alPop]
      rw [h1]
      show alGet rest key2 = alGet ((k, v) :: rest) key2
      simp only [alGet]
      rw [if_neg (show ¬ k = key2 from fun he => h (he.symm))]
    · show alGet (alPop ((k, v) :: rest) key).2 key2 = alGet ((k, v) :: rest) key2
      simp only [alPop, if_neg hk, alGet]
      by_cases hk2 : k = key2
      · simp [hk2]
      · simp [hk2, ih]

/-! ### Size measures (for the termination of the recursive decompiler);
keys are deliberately not counted, since decompile renames keys. -/

mutual
def vsize : Value → Nat
  | .vstr _ => 1
  | .vint _ => 1
  | .vbool _ => 1
  | .vnone => 1
  | .vlist xs => 1 + lsize xs
  | .vdictV fs => 1 + fsize fs
  | .vmember _ => 1
  | .vobjectVal fs => 1 + fsize fs
  | .vprovider w => 1 + vsize w
  | .ventity _ _ fs => 1 + fsize fs

def lsize : List Value → Nat
  | [] => 0
  | v :: t => 1 + vsize v + lsize t

def fsize : List (Str × Value) → Nat
  | [] => 0
  | (_, v) :: t => 1 + vsize v + fsize t
end

theorem vsize_pos (v : Value) : 0 < vsize v := by
  cases v <;> simp [vsize]

theorem fsize_append (a b : List (Str × Value)) :
    fsize (a ++ b) = fsize a + fsize b := by
  induction a with
  | nil => simp [fsize]
  | cons p t ih =>
    obtain ⟨k, v⟩ := p
    simp [fsize, ih]
    omega

theorem fsize_alSetdefault_le (l : List (Str × Value)) (k : Str) (v : Value) :
    fsize (alSetdefault l k v) ≤ fsize l + (1 + vsize v) := by
  unfold alSetdefault
  split
  · omega
  · rw [fsize_append]
    simp only [fsize]
    omega

theorem fsize_alPop_le (l : List (Str × Value)) (k : Str) :
    fsize (alPop l k).2 ≤ fsize l := by
  induction l with
  | nil => simp [alPop, fsize]
  | cons p t ih =>
    obtain ⟨k2, v⟩ := p
    simp only [alPop]
    split
    · show fsize t ≤ fsize ((k2, v) :: t)
      simp only [fsize]
      omega
    · show fsize ((k2, v) :: (alPop t k).2) ≤ fsize ((k2, v) :: t)
      simp only [fsize]
      omega

/-! ### Schemas (Type Descriptors)

Spec section 6: the Schema Provider supplies, per kind, the property
validators (property name to `(validator, is_array)`), the default-value
map, and the display map (property name to wire key).  The provider itself
(`get_schema_details`) lives outside src/, so descriptors are modelled as
plain data that the theorems quantify over or instantiate concretely.
Validator kinds distinguish exactly what `EntityType.decompile` and
`_validate` probe for at runtime:
* `builtinStr` — a plain validator whose `__kind__` is the builtin `str`
  (no `decompile` attribute on `str`);
* `entityRef sub` — a validator whose `__kind__` is an `EntityType`
  subclass (which has the classmethod `decompile`); `sub` is that kind's
  descriptor;
* `providerSpec` — a validator whose `__kind__.__name__` is
  `"ProviderSpecType"`;
* `objectK` — an ObjectDict validator (no `__kind__`; `__is_object__`
  true; its external ObjectType has `validate`/`decompile`). -/

mutual
inductive VKind where
  | builtinStr
  | entityRef (sub : Descriptor)
  | providerSpec
  | objectK

inductive Descriptor where
  | mk (schemaName : Str)
       (validators : List (Str × VKind × Bool))
       (defaults : List (Str × Value))
       (displayMap : List (Str × Str))
end

def Descriptor.schemaName : Descriptor → Str
  | .mk n _ _ _ => n

def Descriptor.validators : Descriptor → List (Str × VKind × Bool)
  | .mk _ v _ _ => v

def Descriptor.defaults : Descriptor → List (Str × Value)
  | .mk _ _ d _ => d

def Descriptor.displayMap : Descriptor → List (Str × Str)
  | .mk _ _ _ m => m

/-- `hasattr(entity_type, "decompile")` for the type behind a validator. -/
def hasDecompileK : VKind → Bool
  | .builtinStr => false
  | .entityRef _ => true
  | .providerSpec => true
  | .objectK => true

/-- `getattr(ValidatorType, "__is_object__", False)`. -/
def isObjectKind : VKind → Bool
  | .objectK => true
  | _ => false

/-! ### Errors

Exceptions raised by the embedded code.  The spec's error taxonomy maps
onto them as follows: `UnknownAttributeError` is the re-raised
`TypeError("Unknown attribute ... given")` of `_validate`;
`UnhandledFieldError` is the `TypeError` of `update_attrs`;
`TypeMismatchError` is the `TypeError("Value ... is not of type ...")`
of `decompile`; `MissingTypeError` is the "Variable/Descriptor type not
defined" `TypeError` of `_validate`. -/

inductive Err where
  /-- `TypeError("Unknown attribute {name} given")` re-raised by `_validate`. -/
  | unknownAttribute (name : Str)
  /-- `TypeError("Variable type not defined")` / `... Descriptor ...`. -/
  | typeNotDefined (which : Str)
  /-- `TypeError("Field {k} has value of type {t} but it is not handled")`. -/
  | unhandledField (name : Str)
  /-- `raise exception` for a Descriptor value carrying `__exception__`. -/
  | memberException
  /-- `TypeError("Value ... is not of type list")` / `("... not of type ...")`
  raised by `EntityType.decompile`. -/
  | typeMismatch
  /-- Python `KeyError` (e.g. `display_map[k]`, `vdict["variables"]`). -/
  | keyError (k : Str)
  /-- Python `AttributeError` (e.g. `.find` on a non-string description,
  `.get` on a non-mapping passed to a nested `decompile`). -/
  | attrError
  /-- Python `TypeError` from iterating a non-iterable. -/
  | notIterable
  /-- Modelled from the spec: a plain validator's type check failed
  (`ValidatorType.validate`, implemented outside src/). -/
  | typeCheckFail
  /-- Python `UnboundLocalError` (`attr_name` in `update_attrs` when the
  first unclassified attribute is a Descriptor value without exception). -/
  | unboundLocal
  deriving DecidableEq, Repr

/-- Which entity types have been registered in
`EntityTypeBase.subclasses` when `_validate` runs (the Variable and
Descriptor classes are looked up by name there). -/
structure Registry where
  variableDefined : Bool
  descriptorDefined : Bool
  deriving DecidableEq, Repr

/-- The fully initialized registry (all base kinds defined at import time). -/
def Registry.full : Registry := { variableDefined := true, descriptorDefined := true }

def Value.isVariableV : Value → Bool
  | .vmember m => m.isVariable
  | _ => false

def Value.isActionV : Value → Bool
  | .vmember m => m.isAction
  | _ => false

def Value.isDescriptorInstV : Value → Bool
  | .vmember m => m.isDescriptorInst
  | _ => false

/-- `setattr(value, "name", name)` on a Variable member. -/
def setMemberName (v : Value) (n : Str) : Value :=
  match v with
  | .vmember m => .vmember { m with name := n }
  | _ => v

/-- Modelled from the spec: `ValidatorType.validate(value, is_array)` for
plain (non-object) validators; the `PropertyValidator` classes live in a
repository module not under src/.  Spec section 4.2: a plain validator
"is still invoked for scalar/array type-checking" — each element of an
array value, or the single scalar value, is checked against the
validator's kind. -/
def plainCheckV (vk : VKind) (isArr : Bool) (v : Value) : Except Err Unit :=
  match vk with
  | .builtinStr =>
    if isArr then
      match v with
      | .vlist xs => if xs.all (fun x => match x with | .vstr _ => true | _ => false)
                     then .ok () else .error .typeCheckFail
      | _ => .error .typeCheckFail
    else
      match v with
      | .vstr _ => .ok ()
      | _ => .error .typeCheckFail
  | .entityRef _ =>
    if isArr then
      match v with
      | .vlist xs => if xs.all (fun x => match x with
                       | .vmember _ => true | .ventity _ _ _ => true | _ => false)
                     then .ok () else .error .typeCheckFail
      | _ => .error .typeCheckFail
    else
      match v with
      | .vmember _ => .ok ()
      | .ventity _ _ _ => .ok ()
      | _ => .error .typeCheckFail
  | .providerSpec => .ok ()
  | .objectK => .ok ()

/-- Modelled from the spec: object-validation capability
(`ValidatorType.validate` for `__is_object__` validators; the ObjectType
class is outside src/).  Spec section 4.2: "delegate to it with the array
flag and return its result". -/
def objValidate (_vk : VKind) (_isArr : Bool) (v : Value) : Except Err Value :=
  .ok v

def isDunder (n : Str) : Bool :=
  (chars ("__")).isPrefixOf n && (chars ("__")).isSuffixOf n

/-- `_validate(vdict, name, value)` of entity.py (lines 17-60).

The `try` block raises `TypeError` for an unknown name; the `except
TypeError` handler recognizes Variable/Action-capable values (only when
the schema has a `variables` / `actions` property) and otherwise re-raises
the original error. -/
def pvalidate (reg : Registry) (vdict : List (Str × VKind × Bool)) (name : Str)
    (value : Value) : Except Err Value :=
  if isDunder name then .ok value
  else
    match alGet vdict name with
    | some (vk, isArr) =>
      if isObjectKind vk then objValidate vk isArr value
      else do
        let _ ← plainCheckV vk isArr value
        .ok value
    | none =>
      -- except TypeError: check if value is a variable/action
      if ¬ reg.variableDefined then .error (.typeNotDefined (chars ("Variable")))
      else if ¬ reg.descriptorDefined then .error (.typeNotDefined (chars ("Descriptor")))
      else if ¬ ((alHasKey vdict (chars ("variables")) && value.isVariableV)
                 || (alHasKey vdict (chars ("actions")) && value.isDescriptorInstV)) then
        .error (.unknownAttribute name)
      else if value.isVariableV then
        match alGet vdict (chars ("variables")) with
        | some (vvk, _) => do
          let value := setMemberName value name
          let _ ← plainCheckV vvk false value
          .ok value
        | none => .error (.keyError (chars ("variables")))
      else
        -- a Descriptor-typed value (e.g. an action): ValidatorType is None
        .ok value

/-! ### Entity definitions and the compiler -/

/-- An entity definition (a class created through the `EntityType`
metaclass): its `__name__`, its `__doc__`, and its attribute dict (the
validated class attributes, with schema defaults filled in by `__new__`).
`compile` may update `name_` (it assigns `cls.__name__`), so it returns
an updated `Ent` alongside the wire mapping. -/
structure Ent where
  name_ : Str
  doc : Option Str
  attrs : AList Value
  deriving Repr

def memberHasException : Value → Bool
  | .vmember m => m.hasException
  | _ => false

/-- Python `list(x)` (a fresh copy) applied to `attrs.get(key, [])`. -/
def pyListCopy (v : Option Value) : Except Err Value :=
  match v with
  | none => .ok (.vlist [])
  | some w =>
    match pyIter w with
    | some xs => .ok (.vlist xs)
    | none => .error .notIterable

/-- `get_user_attrs` (lines 191-207): all class attributes except
dunder-named ones that are not Variable/Action/Descriptor members. -/
def getUserAttrs (e : Ent) : AList Value :=
  e.attrs.filter (fun p =>
    !(isDunder p.1 && !(p.2.isVariableV || p.2.isActionV || p.2.isDescriptorInstV)))

/-- `get_default_attrs` (lines 209-218): every default factory is invoked
afresh; in the pure model a factory call is the stored value itself (the
aliasing concern is modelled separately by the store-based model below). -/
def getDefaultAttrs (d : Descriptor) : AList Value := d.defaults

/-- `get_all_attrs` (lines 266-271): `\x7b**default_attrs, **user_attrs\x7d`. -/
def getAllAttrs (d : Descriptor) (e : Ent) : AList Value :=
  (getUserAttrs e).foldl (fun acc p => alSet acc p.1 p.2) (getDefaultAttrs d)

/-- The classification loop of `update_attrs` (lines 243-261).  `attrNamePrev`
models the Python local `attr_name`, which survives across iterations and
is unbound on the first pass (a Descriptor value without `__exception__`
reaches `attrs[attr_name].append(value)` with whatever `attr_name` last
held). -/
def updateAttrsLoop (vdict : List (Str × VKind × Bool)) :
    List (Str × Value) → AList Value → Option Str → List Str →
    Except Err (AList Value × List Str)
  | [], attrs, _, delKeys => .ok (attrs, delKeys)
  | (key, value) :: rest, attrs, attrNamePrev, delKeys =>
    if alHasKey vdict key then updateAttrsLoop vdict rest attrs attrNamePrev delKeys
    else do
      let attrName ←
        if value.isActionV then Except.ok (chars ("actions"))
        else if value.isVariableV then Except.ok (chars ("variables"))
        else if value.isDescriptorInstV then
          if memberHasException value then Except.error Err.memberException
          else
            match attrNamePrev with
            | some n => Except.ok n
            | none => Except.error Err.unboundLocal
        else Except.error (Err.unhandledField key)
      match alGet attrs attrName with
      | some (.vlist xs) =>
        updateAttrsLoop vdict rest (alSet attrs attrName (.vlist (xs ++ [value])))
          (some attrName) (delKeys ++ [key])
      | some _ => .error .attrError
      | none => .error (.keyError attrName)

/-- `update_attrs` (lines 220-264): copy the `variables` (always) and
`actions` (when in the schema) collections, promote unknown-key
Variable/Action values into them, and delete the promoted keys. -/
def updateAttrs (d : Descriptor) (attrs : AList Value) : Except Err (AList Value) :=
  let vdict := d.validators
  if ¬ (alHasKey vdict (chars ("variables")) || alHasKey vdict (chars ("actions"))) then
    .ok attrs
  else do
    let vcur ← pyListCopy (alGet attrs (chars ("variables")))
    let attrs := alSet attrs (chars ("variables")) vcur
    let attrs ←
      if alHasKey vdict (chars ("actions")) then do
        let acur ← pyListCopy (alGet attrs (chars ("actions")))
        Except.ok (alSet attrs (chars ("actions")) acur)
      else Except.ok attrs
    let (attrs, delKeys) ← updateAttrsLoop vdict attrs attrs none []
    .ok (delKeys.foldl (fun a k => (alPop a k).2) attrs)

def isObjectVal : Value → Bool
  | .vobjectVal _ => true
  | _ => false

/-- `v.compile(cls)` for an `__is_object__` value (ObjectDict; the
ObjectType class is outside src/ — modelled from the spec: "if the value
exposes nested object-compile capability, recursively compile it"). -/
def compileObjectVal : Value → Value
  | .vobjectVal fs => .vdictV fs
  | v => v

/-- The key-translation loop of `compile` (lines 303-308): look every
attribute key up in the display map (`KeyError` when absent) and insert
with `setdefault` (first write wins). -/
def buildCdict (dm : List (Str × Str)) (attrs : AList Value) :
    Except Err (AList Value) :=
  attrs.foldlM (fun cdict p =>
    match alGet dm p.1 with
    | some wk =>
      let cdict1 := if isObjectVal p.2 then alSetdefault cdict wk (compileObjectVal p.2)
                    else cdict
      Except.ok (alSetdefault cdict1 wk p.2)
    | none => Except.error (Err.keyError p.1)) []

/-- Lines 311-312: an empty compiled `name` is replaced by `cls.__name__`. -/
def applyNameDefault (e : Ent) (cdict : AList Value) : AList Value :=
  match alGet cdict (chars ("name")) with
  | some v => if eqStr v [] then alSet cdict (chars ("name")) (.vstr e.name_) else cdict
  | none => cdict

/-- Lines 314-315: an empty compiled `description` is replaced by
`cls.__doc__ if cls.__doc__ else ""`. -/
def applyDescDefault (e : Ent) (cdict : AList Value) : AList Value :=
  match alGet cdict (chars ("description")) with
  | some v =>
    if eqStr v [] then
      alSet cdict (chars ("description")) (.vstr (e.doc.getD []))
    else cdict
  | none => cdict

/-- The guard of lines 340-344: `if dsl_name: if display_name and
display_name != dsl_name:`. -/
def mdOverrideHappens (md : MetaRec) (dslNameV : Option Value) : Bool :=
  (match dslNameV with | some v => isTruthy v | none => false) &&
  (match md.display_name with
   | some dn => (!dn.isEmpty) && !(eqStr (dslNameV.getD .vnone) dn)
   | none => false)

/-- The metadata record that lines 344-347 re-encode: when the override
fires, the pre-override compiled name is stashed under `dsl_name`
(overwriting any existing `dsl_name`). -/
def compileMdStored (md : MetaRec) (dslNameV : Option Value) : MetaRec :=
  if mdOverrideHappens md dslNameV then
    { md with dsl_name := some (pyStrCoerce (dslNameV.getD .vnone)) }
  else md

/-- The metadata block of `compile` (lines 318-352).  Returns the updated
wire mapping, the new `cls.__name__` (if assigned), and whether the
`except` handler logged a warning.  On a parse failure the mapping —
including its `description` — is left exactly as it was. -/
def metadataOnCompile (cdict : AList Value) (dv : Value) :
    Except Err (AList Value × Option Str × Bool) :=
  match dv with
  | .vstr descr =>
    match findSub descr sepString with
    | none => .ok (cdict, none, false)
    | some ind =>
      let mdStr := descr.drop (ind + sepString.length)
      let descHead := descr.take (ind + sepString.length)
      match mdDecode mdStr with
      | none => .ok (cdict, none, true)
      | some md =>
        let dslNameV := alGet cdict (chars ("name"))
        let cdict1 :=
          if mdOverrideHappens md dslNameV then
            match md.display_name with
            | some dn => alSet cdict (chars ("name")) (.vstr dn)
            | none => cdict
          else cdict
        let newName : Option Str :=
          if mdOverrideHappens md dslNameV then md.display_name else none
        let mdNew := compileMdStored md dslNameV
        .ok (alSet cdict1 (chars ("description"))
              (.vstr (descHead ++ nl ++ mdEncode mdNew)), newName, false)
  | _ => .error .attrError

/-- `EntityType.compile` (lines 297-358). -/
def compile (d : Descriptor) (e : Ent) : Except Err (Ent × AList Value) := do
  let attrs := getAllAttrs d e
  let attrs ← updateAttrs d attrs
  let cdict ← buildCdict d.displayMap attrs
  let cdict := applyNameDefault e cdict
  let cdict := applyDescDefault e cdict
  match alGet cdict (chars ("description")) with
  | none => .ok (e, cdict)
  | some dv => do
    let (cdict2, newName, _warned) ← metadataOnCompile cdict dv
    let e2 :=
      match newName with
      | some s => { e with name_ := s }
      | none => e
    .ok (e2, cdict2)

/-- Modelled from the spec: `get_valid_identifier` (from
`calm.dsl.builtins.models.utils`, a repository module not under src/);
spec 4.4 step 3: "coerce to a valid identifier form".  Valid identifiers
pass through unchanged; anything else is sanitized. -/
def isValidIdent (s : Str) : Bool :=
  match s with
  | [] => false
  | c :: rest => (c.isAlpha || c = '_') && rest.all (fun x => x.isAlphanum || x = '_')

def getValidIdentifier (s : Str) : Str :=
  if isValidIdent s then s
  else '_' :: s.filter (fun x => x.isAlphanum || x = '_')

/-! ### The decompiler -/

/-- The guard of lines 388-391: `if dsl_name: if dsl_name and name != dsl_name:`. -/
def dslRecoveryHappens (md : MetaRec) (nameV : Value) : Bool :=
  match md.dsl_name with
  | some s => (!s.isEmpty) && !(eqStr nameV s)
  | none => false

/-- The metadata record re-encoded by `decompile` (line 391 pops the
recovery key only when the recovery fires). -/
def decompileMdStored (md : MetaRec) (nameV : Value) : MetaRec :=
  if dslRecoveryHappens md nameV then { md with dsl_name := none } else md

/-- The metadata block of `decompile` (lines 368-398).  Returns the new
description, the (possibly recovered) name, and whether the `except`
handler logged a warning.  Note that on a parse failure the description
has already been truncated at the end of the marker (line 373 rebinds the
local before the `try` block), so the unparseable tail is dropped. -/
def metadataOnDecompile (dv : Value) (nameV : Value) :
    Except Err (Str × Value × Bool) :=
  match dv with
  | .vstr descr =>
    match findSub descr sepString with
    | none => .ok (descr, nameV, false)
    | some ind =>
      let mdStr := descr.drop (ind + sepString.length)
      let descHead := descr.take (ind + sepString.length)
      match mdDecode mdStr with
      | none => .ok (descHead, nameV, true)
      | some md =>
        let nameV2 :=
          if dslRecoveryHappens md nameV then Value.vstr (md.dsl_name.getD [])
          else nameV
        .ok (descHead ++ nl ++ mdEncode (decompileMdStored md nameV), nameV2, false)
  | _ => .error .attrError

/-- Steps 1-2 of `decompile` applied to the popped `description`. -/
def descrNamePhase (descV : Option Value) (nameV : Value) :
    Except Err (Option Str × Value) :=
  match descV with
  | none => .ok (none, nameV)
  | some dv => (metadataOnDecompile dv nameV).map (fun r => (some r.1, r.2.1))

/-- `\x7bv: k for k, v in display_map.items()\x7d` (line 406). -/
def invertMap (dm : List (Str × Str)) : List (Str × Str) :=
  dm.foldl (fun acc p => alSet acc p.2 p.1) []

/-- The wire-key translation loop of `decompile` (lines 408-412): keys with
a falsy inverse mapping (absent or empty) are skipped; `setdefault` keeps
the first value for a property name. -/
def attrsLoop (inv : List (Str × Str)) : AList Value → AList Value → AList Value
  | [], acc => acc
  | (k, v) :: rest, acc =>
    match alGet inv k with
    | some m => if m.isEmpty then attrsLoop inv rest acc
                else attrsLoop inv rest (alSetdefault acc m v)
    | none => attrsLoop inv rest acc

theorem fsize_attrsLoop_le (inv : List (Str × Str)) :
    ∀ (cdict acc : AList Value), fsize (attrsLoop inv cdict acc) ≤ fsize acc + fsize cdict := by
  intro cdict
  induction cdict with
  | nil => intro acc; simp [attrsLoop, fsize]
  | cons p rest ih =>
    intro acc
    obtain ⟨k, v⟩ := p
    simp only [attrsLoop]
    cases hm : alGet inv k with
    | none =>
      have := ih acc
      simp only [fsize]
      omega
    | some m =>
      by_cases hme : m.isEmpty
      · simp only [if_pos hme]
        have := ih acc
        simp only [fsize]
        omega
      · simp only [if_neg hme]
        have h1 := ih (alSetdefault acc m v)
        have h2 := fsize_alSetdefault_le acc m v
        simp only [fsize]
        omega

/-- The element checks of the builtin array branch (lines 446-453) for a
`str`-kinded validator: `isinstance(val, str)` then `str(val)` (identity). -/
def strElemChecks : List Value → Except Err (List Value)
  | [] => .ok []
  | val :: rest =>
    match val with
    | .vstr s => (strElemChecks rest).map (fun r => Value.vstr s :: r)
    | _ => .error .typeMismatch

/-- The `EntityDict` insertion pass of `EntityType.__new__` (lines 149-158)
run on the attrs handed to `mcls(dsl_class_name, (Entity,), attrs)`:
every pair goes through `_validate`. -/
def mkEntValidate (vdict : List (Str × VKind × Bool)) :
    AList Value → AList Value → Except Err (AList Value)
  | [], acc => .ok acc
  | (k, v) :: rest, acc => do
    let v2 ← pvalidate Registry.full vdict k v
    mkEntValidate vdict rest (alSet acc k v2)

/-- The default-filling loop of `EntityType.__new__` (lines 163-167):
missing schema defaults are attached through `__setattr__` (which
validates). -/
def fillDefaults (vdict : List (Str × VKind × Bool)) (defaults : AList Value)
    (attrs : AList Value) : Except Err (AList Value) :=
  defaults.foldlM (fun acc p =>
    if alHasKey acc p.1 then Except.ok acc
    else do
      let v2 ← pvalidate Registry.full vdict p.1 p.2
      Except.ok (alSet acc p.1 v2)) attrs

/-- `cls = mcls(dsl_class_name, (Entity,), attrs); cls.__doc__ = description`
(lines 462-463), yielding the new entity definition. -/
def mkEnt (d : Descriptor) (clsName : Str) (attrs : AList Value)
    (docStr : Option Str) : Except Err Value := do
  let attrs1 ← mkEntValidate d.validators attrs []
  let attrs2 ← fillDefaults d.validators d.defaults attrs1
  .ok (.ventity clsName docStr attrs2)

mutual

/-- `EntityType.decompile` (lines 360-465) on a wire mapping: returns the
new entity definition (a `ventity` value) together with the caller's
mapping as `decompile` leaves it (the `description` entry popped). -/
def decompileCdict (d : Descriptor) (cdict : AList Value) :
    Except Err (Value × AList Value) := do
  let nameV := (alGet cdict (chars ("name"))).getD (.vstr d.schemaName)
  let popped := alPop cdict (chars ("description"))
  let (docStr, nameV2) ← descrNamePhase popped.1 nameV
  let dslClassName := getValidIdentifier (pyStrCoerce nameV2)
  let attrs1 ← processAttrs d (attrsLoop (invertMap d.displayMap) popped.2 [])
  let cls ← mkEnt d dslClassName attrs1 docStr
  .ok (cls, popped.2)
termination_by 4 * fsize cdict + 3
decreasing_by
  have h1 := fsize_attrsLoop_le (invertMap d.displayMap) (alPop cdict (chars ("description"))).2 []
  have h2 := fsize_alPop_le cdict (chars ("description"))
  simp only [fsize] at h1
  omega

/-- The per-property loop of `decompile` (lines 414-458): each mapped
property is processed by validator kind. -/
def processAttrs (d : Descriptor) : AList Value → Except Err (AList Value)
  | [] => .ok []
  | (k, v) :: rest =>
    match alGet d.validators k with
    | none => .error (.keyError k)
    | some (vk, isArr) => do
      let nv ← decompileProp vk isArr v
      let r ← processAttrs d rest
      .ok ((k, nv) :: r)
termination_by attrs => 4 * fsize attrs + 2
decreasing_by
  all_goals first
  | omega
  | (simp only [fsize]; omega)

/-- One property of `decompile` (lines 418-456): provider-spec delegation,
decompile-capable kinds (with the list check for arrays), or builtin
type-checking/coercion. -/
def decompileProp (vk : VKind) (isArr : Bool) (v : Value) : Except Err Value :=
  match vk with
  | .providerSpec =>
    -- `provider_spec(v)` (external decoder, spec section 6), then `continue`
    .ok (.vprovider v)
  | .entityRef sub =>
    if isArr then
      match v with
      | .vlist vs => (processElems sub vs).map .vlist
      | _ => .error .typeMismatch
    else decompileElem sub v
  | .objectK =>
    -- the external ObjectType also exposes `decompile`; modelled from the
    -- spec, its decode is the identity on the wire value
    if isArr then
      match v with
      | .vlist vs => .ok (.vlist vs)
      | _ => .error .typeMismatch
    else .ok v
  | .builtinStr =>
    if isArr then
      match pyIter v with
      | some vals => (strElemChecks vals).map .vlist
      | none => .error .notIterable
    else .ok (.vstr (pyStrCoerce v))
termination_by 4 * vsize v + 1
decreasing_by
  all_goals first
  | omega
  | (simp only [vsize]; omega)

/-- `entity_type.decompile(val)` for one element: `val` must be a mapping
(`.get` on anything else raises `AttributeError`). -/
def decompileElem (sub : Descriptor) (v : Value) : Except Err Value :=
  match v with
  | .vdictV fs => (decompileCdict sub fs).map (fun r => r.1)
  | _ => .error .attrError
termination_by 4 * vsize v
decreasing_by
  all_goals first
  | omega
  | (simp only [vsize]; omega)

/-- The array branch of the decompile-capable case (lines 432-438). -/
def processElems (sub : Descriptor) : List Value → Except Err (List Value)
  | [] => .ok []
  | v :: rest => do
    let nv ← decompileElem sub v
    let r ← processElems sub rest
    .ok (nv :: r)
termination_by vs => 4 * lsize vs + 2
decreasing_by
  all_goals first
  | omega
  | (simp only [lsize]; omega)

end

/-! ### Store-based model of `get_default_attrs` / `update_attrs` (C8)

The pure model above cannot express aliasing, so the default-instantiation
and collection-copying discipline of lines 209-235 is modelled once more
with Python lists as references into an explicit store: a default-value
factory (`value()` on line 215) allocates a fresh list, and
`list(attrs.get(...))` (lines 233-235) allocates a fresh copy; the
promotion loop appends through the reference held in `attrs`. -/

def varsKey : Str := chars ("variables")
def actsKey : Str := chars ("actions")

structure Store where
  lists : List (List Value)
  deriving Repr

def Store.len (s : Store) : Nat := s.lists.length

def Store.get (s : Store) (r : Nat) : List Value := s.lists.getD r []

/-- Allocate a fresh list object. -/
def Store.alloc (s : Store) (content : List Value) : Store × Nat :=
  ({ lists := s.lists ++ [content] }, s.lists.length)

/-- `lst.append(v)` through a reference. -/
def Store.appendAt (s : Store) (r : Nat) (v : Value) : Store :=
  { lists := s.lists.set r (s.lists.getD r [] ++ [v]) }

/-- An attribute value in the store model: a plain value or a list object. -/
inductive SVal where
  | scalar (v : Value)
  | lref (r : Nat)
  deriving Repr

/-- `get_default_attrs` (lines 209-218): each default factory is invoked
afresh; list-valued defaults (`lambda: []` for variables/actions) allocate
a new list object per call. -/
def defaultAttrsStore (d : Descriptor) (s : Store) : Store × AList SVal :=
  d.defaults.foldl (fun (acc : Store × AList SVal) p =>
    match p.2 with
    | .vlist xs => ((acc.1.alloc xs).1, acc.2 ++ [(p.1, .lref (acc.1.alloc xs).2)])
    | v => (acc.1, acc.2 ++ [(p.1, .scalar v)])) (s, [])

/-- `list(attrs.get(key, []))`: a fresh copy. -/
def pyListCopyS (s : Store) (v : Option SVal) : Except Err (Store × Nat) :=
  match v with
  | none => .ok (s.alloc [])
  | some (.lref r) => .ok (s.alloc (s.get r))
  | some (.scalar w) =>
    match pyIter w with
    | some xs => .ok (s.alloc xs)
    | none => .error .notIterable

def SVal.isActionS : SVal → Bool
  | .scalar v => v.isActionV
  | _ => false

def SVal.isVariableS : SVal → Bool
  | .scalar v => v.isVariableV
  | _ => false

def SVal.isDescriptorInstS : SVal → Bool
  | .scalar v => v.isDescriptorInstV
  | _ => false

def SVal.hasExceptionS : SVal → Bool
  | .scalar v => memberHasException v
  | _ => false

def SVal.toValue : SVal → Value
  | .scalar v => v
  | .lref _ => .vnone

/-- The classification loop of `update_attrs` in the store model: appends
go through the references held at `attrs["variables"]` / `attrs["actions"]`. -/
def updateAttrsLoopS (vdict : List (Str × VKind × Bool)) :
    List (Str × SVal) → Store → AList SVal → Option Str → List Str →
    Except Err (Store × List Str)
  | [], s, _, _, delKeys => .ok (s, delKeys)
  | (key, value) :: rest, s, attrs, prev, delKeys =>
    if alHasKey vdict key then updateAttrsLoopS vdict rest s attrs prev delKeys
    else do
      let attrName ←
        if value.isActionS then Except.ok actsKey
        else if value.isVariableS then Except.ok varsKey
        else if value.isDescriptorInstS then
          if value.hasExceptionS then Except.error Err.memberException
          else
            match prev with
            | some n => Except.ok n
            | none => Except.error Err.unboundLocal
        else Except.error (Err.unhandledField key)
      match alGet attrs attrName with
      | some (.lref r) =>
        updateAttrsLoopS vdict rest (s.appendAt r value.toValue) attrs
          (some attrName) (delKeys ++ [key])
      | some (.scalar _) => .error .attrError
      | none => .error (.keyError attrName)

/-- `update_attrs` (lines 220-264) in the store model. -/
def updateAttrsStore (d : Descriptor) (s : Store) (attrs : AList SVal) :
    Except Err (Store × AList SVal) :=
  let vdict := d.validators
  if ¬ (alHasKey vdict varsKey || alHasKey vdict actsKey) then .ok (s, attrs)
  else do
    let sv ← pyListCopyS s (alGet attrs varsKey)
    let attrs := alSet attrs varsKey (.lref sv.2)
    let (s, attrs) ←
      if alHasKey vdict actsKey then do
        let sa ← pyListCopyS sv.1 (alGet attrs actsKey)
        Except.ok (sa.1, alSet attrs actsKey (.lref sa.2))
      else Except.ok (sv.1, attrs)
    let r ← updateAttrsLoopS vdict attrs s attrs none []
    .ok (r.1, r.2.foldl (fun a k => (alPop a k).2) attrs)

/-- Lines 299-300 of `compile` in the store model: fresh defaults, merged
with the user attributes, then `update_attrs`. -/
def compileGatherStore (d : Descriptor) (s : Store) (userAttrs : AList SVal) :
    Except Err (Store × AList SVal) :=
  let dres := defaultAttrsStore d s
  let merged := userAttrs.foldl (fun acc p => alSet acc p.1 p.2) dres.2
  updateAttrsStore d dres.1 merged

/-! ### Store lemmas for the aliasing model -/

theorem getD_append_lt {α : Type} (d : α) :
    ∀ (l1 l2 : List α) (j : Nat), j < l1.length → (l1 ++ l2).getD j d = l1.getD j d := by
  intro l1
  induction l1 with
  | nil => intro l2 j h; simp at h
  | cons x xs ih =>
    intro l2 j h
    cases j with
    | zero => rfl
    | succ j2 =>
      simp only [List.cons_append, List.getD_cons_succ]
      exact ih l2 j2 (by simp at h; omega)

theorem getD_set_ne {α : Type} (d a : α) :
    ∀ (l : List α) (r j : Nat), j ≠ r → (l.set r a).getD j d = l.getD j d := by
  intro l
  induction l with
  | nil => intro r j h; simp
  | cons x xs ih =>
    intro r j h
    cases r with
    | zero =>
      cases j with
      | zero => exact absurd rfl h
      | succ j2 => simp [List.set]
    | succ r2 =>
      cases j with
      | zero => simp [List.set]
      | succ j2 =>
        simp only [List.set, List.getD_cons_succ]
        exact ih r2 j2 (fun he => h (by omega))

theorem Store.get_alloc_lt (s : Store) (c : List Value) {j : Nat} (h : j < s.len) :
    (s.alloc c).1.get j = s.get j := by
  simp only [Store.alloc, Store.get]
  exact getD_append_lt [] s.lists [c] j h

theorem Store.len_alloc (s : Store) (c : List Value) : (s.alloc c).1.len = s.len + 1 := by
  simp [Store.alloc, Store.len]

theorem Store.alloc_idx (s : Store) (c : List Value) : (s.alloc c).2 = s.len := rfl

theorem Store.get_appendAt_ne (s : Store) (r : Nat) (v : Value) {j : Nat} (h : j ≠ r) :
    (s.appendAt r v).get j = s.get j := by
  simp only [Store.appendAt, Store.get]
  exact getD_set_ne [] _ s.lists r j h

theorem Store.len_appendAt (s : Store) (r : Nat) (v : Value) :
    (s.appendAt r v).len = s.len := by
  simp [Store.appendAt, Store.len]

theorem alGet_alSet_same {β : Type} (l : AList β) (k : Str) (v : β) :
    alGet (alSet l k v) k = some v := by
  induction l with
  | nil => simp [alSet, alGet]
  | cons p rest ih =>
    obtain ⟨k2, w⟩ := p
    by_cases h : k2 = k
    · simp [alSet, alGet, h]
    · simp [alSet, alGet, h, ih]

theorem alGet_alSet_ne {β : Type} (l : AList β) (k key : Str) (v : β) (h : k ≠ key) :
    alGet (alSet l k v) key = alGet l key := by
  induction l with
  | nil => simp [alSet, alGet, h]
  | cons p rest ih =>
    obtain ⟨k2, w⟩ := p
    by_cases h2 : k2 = k
    · subst h2
      simp [alSet, alGet, h]
    · simp only [alSet, if_neg h2, alGet]
      by_cases h3 : k2 = key
      · simp [h3]
      · simp [h3, ih]

theorem alGet_popFold_ne {β : Type} (key : Str) :
    ∀ (dk : List Str) (l : AList β), (∀ k, k ∈ dk → k ≠ key) →
      alGet (dk.foldl (fun a k => (alPop a k).2) l) key = alGet l key := by
  intro dk
  induction dk with
  | nil => intro l _; rfl
  | cons k rest ih =>
    intro l hk
    simp only [List.foldl_cons]
    rw [ih _ (fun k2 hm => hk k2 (List.mem_cons_of_mem _ hm))]
    exact alGet_alPop_ne l k key (hk k (List.mem_cons_self _ _)).symm

/-- What a successful `pyListCopyS` gives: a fresh index at the old
length, one more list in the store, old cells untouched. -/
theorem pyListCopyS_spec {s : Store} {v : Option SVal} {s' : Store} {r : Nat}
    (h : pyListCopyS s v = .ok (s', r)) :
    r = s.len ∧ s'.len = s.len + 1 ∧ ∀ j, j < s.len → s'.get j = s.get j := by
  cases v with
  | none =>
    simp only [pyListCopyS, Store.alloc, Except.ok.injEq, Prod.mk.injEq] at h
    obtain ⟨h1, h2⟩ := h
    subst h1
    subst h2
    exact ⟨rfl, Store.len_alloc s [], fun j hj => Store.get_alloc_lt s [] hj⟩
  | some sv =>
    cases sv with
    | lref r2 =>
      simp only [pyListCopyS, Store.alloc, Except.ok.injEq, Prod.mk.injEq] at h
      obtain ⟨h1, h2⟩ := h
      subst h1
      subst h2
      exact ⟨rfl, Store.len_alloc s _, fun j hj => Store.get_alloc_lt s _ hj⟩
    | scalar w =>
      simp only [pyListCopyS] at h
      cases hit : pyIter w with
      | none => rw [hit] at h; simp at h
      | some xs =>
        rw [hit] at h
        simp only [Store.alloc, Except.ok.injEq, Prod.mk.injEq] at h
        obtain ⟨h1, h2⟩ := h
        subst h1
        subst h2
        exact ⟨rfl, Store.len_alloc s _, fun j hj => Store.get_alloc_lt s _ hj⟩

/-- The classification loop appends only through the references held at
`attrs["variables"]` / `attrs["actions"]`: every store cell below `N` is
untouched when both references are at least `N`, the store length never
changes, and every key queued for deletion is one the schema does not
know. -/
theorem updateAttrsLoopS_preserves (vdict : List (Str × VKind × Bool)) (N : Nat) :
    ∀ (entries : List (Str × SVal)) (s : Store) (attrs : AList SVal)
      (prev : Option Str) (dk : List Str) (s' : Store) (dk' : List Str),
      updateAttrsLoopS vdict entries s attrs prev dk = .ok (s', dk') →
      (∀ r, alGet attrs varsKey = some (.lref r) → N ≤ r) →
      (∀ r, alGet attrs actsKey = some (.lref r) → N ≤ r) →
      (prev = none ∨ prev = some varsKey ∨ prev = some actsKey) →
      s'.len = s.len ∧ (∀ j, j < N → s'.get j = s.get j) ∧
        (∀ k, k ∈ dk' → k ∈ dk ∨ alHasKey vdict k = false) := by
  intro entries
  induction entries with
  | nil =>
    intro s attrs prev dk s' dk' h hv ha hp
    simp only [updateAttrsLoopS, Except.ok.injEq, Prod.mk.injEq] at h
    obtain ⟨h1, h2⟩ := h
    subst h1
    subst h2
    exact ⟨rfl, fun j _ => rfl, fun k hk => Or.inl hk⟩
  | cons e rest ih =>
    intro s attrs prev dk s' dk' h hv ha hp
    obtain ⟨key, value⟩ := e
    simp only [updateAttrsLoopS] at h
    by_cases hin : alHasKey vdict key
    · rw [if_pos hin] at h
      exact ih s attrs prev dk s' dk' h hv ha hp
    · rw [if_neg hin] at h
      have step : ∀ (aname : Str), (aname = varsKey ∨ aname = actsKey) →
          (match alGet attrs aname with
            | some (.lref r) =>
              updateAttrsLoopS vdict rest (s.appendAt r value.toValue) attrs
                (some aname) (dk ++ [key])
            | some (.scalar _) => (Except.error Err.attrError : Except Err (Store × List Str))
            | none => Except.error (Err.keyError aname)) = .ok (s', dk') →
          s'.len = s.len ∧ (∀ j, j < N → s'.get j = s.get j) ∧
            (∀ k, k ∈ dk' → k ∈ dk ∨ alHasKey vdict k = false) := by
        intro aname han hm
        cases hga : alGet attrs aname with
        | none => rw [hga] at hm; simp at hm
        | some sv =>
          rw [hga] at hm
          cases sv with
          | scalar w => simp at hm
          | lref r =>
            have hr : N ≤ r := by
              rcases han with h1 | h1 <;> (subst h1)
              · exact hv r hga
              · exact ha r hga
            have hrec := ih (s.appendAt r value.toValue) attrs (some aname)
              (dk ++ [key]) s' dk' hm hv ha
              (by rcases han with h1 | h1 <;> subst h1
                  · exact Or.inr (Or.inl rfl)
                  · exact Or.inr (Or.inr rfl))
            obtain ⟨hl, hg, hdk⟩ := hrec
            refine ⟨by rw [hl, Store.len_appendAt], ?_, ?_⟩
            · intro j hj
              rw [hg j hj, Store.get_appendAt_ne s r _ (by omega)]
            · intro k hk
              rcases hdk k hk with hmem | hnk
              · rcases List.mem_append.mp hmem with h1 | h1
                · exact Or.inl h1
                · simp only [List.mem_singleton] at h1
                  subst h1
                  exact Or.inr (by simpa using hin)
              · exact Or.inr hnk
      by_cases hact : value.isActionS
      · simp only [hact, if_true, bind, Except.bind] at h
        exact step actsKey (Or.inr rfl) h
      · by_cases hvar : value.isVariableS
        · simp only [hact, hvar, if_true, if_false, Bool.false_eq_true, bind, Except.bind] at h
          exact step varsKey (Or.inl rfl) h
        · by_cases hdsc : value.isDescriptorInstS
          · by_cases hex : value.hasExceptionS
            · simp [hact, hvar, hdsc, hex, bind, Except.bind] at h
            · cases hprev : prev with
              | none =>
                rw [hprev] at h
                simp [hact, hvar, hdsc, hex, bind, Except.bind] at h
              | some n =>
                rw [hprev] at h
                simp only [hact, hvar, hdsc, hex, Bool.false_eq_true, if_true, if_false,
                  bind, Except.bind] at h
                have hn : n = varsKey ∨ n = actsKey := by
                  rcases hp with h1 | h1 | h1
                  · rw [hprev] at h1; cases h1
                  · rw [hprev] at h1
                    exact Or.inl (Option.some.inj h1)
                  · rw [hprev] at h1
                    exact Or.inr (Option.some.inj h1)
                exact step n hn h
          · simp [hact, hvar, hdsc, bind, Except.bind] at h

/-- Instantiating the defaults only allocates fresh lists: the store grows
and old cells are untouched. -/
theorem defaultAttrsStore_aux :
    ∀ (defs : List (Str × Value)) (s : Store) (acc : AList SVal),
      s.len ≤ (defs.foldl (fun (acc2 : Store × AList SVal) p =>
          match p.2 with
          | .vlist xs => ((acc2.1.alloc xs).1, acc2.2 ++ [(p.1, .lref (acc2.1.alloc xs).2)])
          | v => (acc2.1, acc2.2 ++ [(p.1, .scalar v)])) (s, acc)).1.len ∧
        ∀ j, j < s.len →
          ((defs.foldl (fun (acc2 : Store × AList SVal) p =>
            match p.2 with
            | .vlist xs => ((acc2.1.alloc xs).1, acc2.2 ++ [(p.1, .lref (acc2.1.alloc xs).2)])
            | v => (acc2.1, acc2.2 ++ [(p.1, .scalar v)])) (s, acc)).1).get j
            = s.get j := by
  intro defs
  induction defs with
  | nil => intro s acc; exact ⟨Nat.le_refl _, fun j _ => rfl⟩
  | cons p rest ih =>
    intro s acc
    obtain ⟨k, v⟩ := p
    cases v with
    | vlist xs =>
      simp only [List.foldl_cons]
      have h1 := Store.len_alloc s xs
      obtain ⟨ihl, ihg⟩ := ih (s.alloc xs).1 (acc ++ [(k, .lref (s.alloc xs).2)])
      refine ⟨by omega, fun j hj => ?_⟩
      rw [ihg j (by omega), Store.get_alloc_lt s xs hj]
    | vstr s2 => simpa only [List.foldl_cons] using ih s (acc ++ [(k, .scalar (.vstr s2))])
    | vint n => simpa only [List.foldl_cons] using ih s (acc ++ [(k, .scalar (.vint n))])
    | vbool b => simpa only [List.foldl_cons] using ih s (acc ++ [(k, .scalar (.vbool b))])
    | vnone => simpa only [List.foldl_cons] using ih s (acc ++ [(k, .scalar .vnone)])
    | vdictV fs => simpa only [List.foldl_cons] using ih s (acc ++ [(k, .scalar (.vdictV fs))])
    | vmember m => simpa only [List.foldl_cons] using ih s (acc ++ [(k, .scalar (.vmember m))])
    | vobjectVal fs =>
      simpa only [List.foldl_cons] using ih s (acc ++ [(k, .scalar (.vobjectVal fs))])
    | vprovider w => simpa only [List.foldl_cons] using ih s (acc ++ [(k, .scalar (.vprovider w))])
    | ventity n dc ats =>
      simpa only [List.foldl_cons] using ih s (acc ++ [(k, .scalar (.ventity n dc ats))])

theorem defaultAttrsStore_extends (d : Descriptor) (s : Store) :
    s.len ≤ (defaultAttrsStore d s).1.len ∧
      ∀ j, j < s.len → (defaultAttrsStore d s).1.get j = s.get j :=
  defaultAttrsStore_aux d.defaults s []

/-- `update_attrs` in the store model: the caller's cells are untouched,
the store only grows, and the `variables` entry of the result is a
reference allocated during this call. -/
theorem updateAttrsStore_spec (d : Descriptor) (s0 : Store) (attrs : AList SVal)
    (s' : Store) (a' : AList SVal)
    (hvd : alHasKey d.validators varsKey = true)
    (had : alHasKey d.validators actsKey = true)
    (h : updateAttrsStore d s0 attrs = .ok (s', a')) :
    (∀ j, j < s0.len → s'.get j = s0.get j) ∧ s0.len ≤ s'.len ∧
      (∀ r, alGet a' varsKey = some (.lref r) → s0.len ≤ r ∧ r < s'.len) := by
  unfold updateAttrsStore at h
  simp only [hvd, had, Bool.true_or, not_true, if_true, if_false, bind, Except.bind] at h
  cases hc1 : pyListCopyS s0 (alGet attrs varsKey) with
  | error e => rw [hc1] at h; simp at h
  | ok svp =>
    rw [hc1] at h
    obtain ⟨s1, rv⟩ := svp
    dsimp only [] at h
    obtain ⟨hrv, hl1, hg1⟩ := pyListCopyS_spec hc1
    cases hc2 : pyListCopyS s1 (alGet (alSet attrs varsKey (.lref rv)) actsKey) with
    | error e => rw [hc2] at h; simp at h
    | ok sap =>
      rw [hc2] at h
      obtain ⟨s2, ra⟩ := sap
      dsimp only [] at h
      obtain ⟨hra, hl2, hg2⟩ := pyListCopyS_spec hc2
      cases hc3 : updateAttrsLoopS d.validators
          (alSet (alSet attrs varsKey (.lref rv)) actsKey (.lref ra)) s2
          (alSet (alSet attrs varsKey (.lref rv)) actsKey (.lref ra)) none [] with
      | error e => rw [hc3] at h; simp at h
      | ok lp =>
        rw [hc3] at h
        obtain ⟨s3, dk⟩ := lp
        dsimp only [] at h
        simp only [Except.ok.injEq, Prod.mk.injEq] at h
        obtain ⟨hs3, ha2⟩ := h
        have hkne : varsKey ≠ actsKey := by decide
        have hv2 : ∀ r, alGet (alSet (alSet attrs varsKey (.lref rv)) actsKey (.lref ra))
            varsKey = some (.lref r) → s0.len ≤ r := by
          intro r hr
          rw [alGet_alSet_ne _ _ _ _ (fun he => hkne he.symm),
            alGet_alSet_same] at hr
          cases hr
          omega
        have ha3 : ∀ r, alGet (alSet (alSet attrs varsKey (.lref rv)) actsKey (.lref ra))
            actsKey = some (.lref r) → s0.len ≤ r := by
          intro r hr
          rw [alGet_alSet_same] at hr
          cases hr
          omega
        obtain ⟨hll, hgg, hdk⟩ := updateAttrsLoopS_preserves d.validators s0.len _ _ _ _ _ _ _
          hc3 hv2 ha3 (Or.inl rfl)
        subst hs3
        subst ha2
        refine ⟨?_, ?_, ?_⟩
        · intro j hj
          rw [hgg j hj, hg2 j (by omega), hg1 j hj]
        · omega
        · intro r hr
          rw [alGet_popFold_ne varsKey dk _ ?hne] at hr
          case hne =>
            intro k hk he
            rcases hdk k hk with h1 | h1
            · simp at h1
            · subst he
              rw [hvd] at h1
              cases h1
          rw [alGet_alSet_ne _ _ _ _ (fun he => hkne he.symm), alGet_alSet_same] at hr
          cases hr
          constructor
          · omega
          · omega

/-- `compile`'s attribute-gathering (fresh defaults, merge, `update_attrs`)
in the store model. -/
theorem compileGatherStore_spec (d : Descriptor) (s0 : Store) (u : AList SVal)
    (s' : Store) (a' : AList SVal)
    (hvd : alHasKey d.validators varsKey = true)
    (had : alHasKey d.validators actsKey = true)
    (h : compileGatherStore d s0 u = .ok (s', a')) :
    (∀ j, j < s0.len → s'.get j = s0.get j) ∧ s0.len ≤ s'.len ∧
      (∀ r, alGet a' varsKey = some (.lref r) → s0.len ≤ r ∧ r < s'.len) := by
  unfold compileGatherStore at h
  obtain ⟨hdl, hdg⟩ := defaultAttrsStore_extends d s0
  obtain ⟨hg, hl, hb⟩ := updateAttrsStore_spec d (defaultAttrsStore d s0).1 _ s' a' hvd had h
  refine ⟨?_, by omega, ?_⟩
  · intro j hj
    rw [hg j (by omega), hdg j hj]
  · intro r hr
    obtain ⟨h1, h2⟩ := hb r hr
    exact ⟨by omega, h2⟩

/-- C8: defaults are never shared mutable state across compiles: each
compile instantiates defaults freshly and copies the variables/actions
collections before appending promoted members, so two consecutive
attribute-gathering passes (over any starting store) append into distinct
list objects, and the second pass leaves the first pass's `variables`
list unchanged. -/
theorem c8_default_isolation (d : Descriptor) (s0 s1 s2 : Store)
    (u1 u2 a1 a2 : AList SVal) (r1 r2 : Nat)
    (hvd : alHasKey d.validators varsKey = true)
    (had : alHasKey d.validators actsKey = true)
    (h1 : compileGatherStore d s0 u1 = .ok (s1, a1))
    (hr1 : alGet a1 varsKey = some (.lref r1))
    (h2 : compileGatherStore d s1 u2 = .ok (s2, a2))
    (hr2 : alGet a2 varsKey = some (.lref r2)) :
    r1 ≠ r2 ∧ s2.get r1 = s1.get r1 := by
  obtain ⟨p1, l1, b1⟩ := compileGatherStore_spec d s0 u1 s1 a1 hvd had h1
  obtain ⟨p2, l2, b2⟩ := compileGatherStore_spec d s1 u2 s2 a2 hvd had h2
  obtain ⟨hr1a, hr1b⟩ := b1 r1 hr1
  obtain ⟨hr2a, hr2b⟩ := b2 r2 hr2
  exact ⟨by omega, p2 r1 hr1b⟩

/-! ### Concrete schema instances and projection helpers -/

def c8s0 : Store := { lists := [] }

/-- A flat service-like descriptor: `name` and `description` string
properties with empty-string defaults and identity display mapping (the
shape every calm schema gives these two reserved properties). -/
def d0 : Descriptor := .mk (chars ("service"))
  [(chars ("name"), .builtinStr, false), (chars ("description"), .builtinStr, false)]
  [(chars ("name"), .vstr []), (chars ("description"), .vstr [])]
  [(chars ("name"), chars ("name")), (chars ("description"), chars ("description"))]

/-- The docstring of the spec's metadata test property: prefix `X`, the
marker, and a metadata tail with `display_name: Friendly Name`. -/
def docMeta : Str :=
  chars ("X") ++ nl ++ sepString ++ nl ++ chars ("calm_dsl_metadata:") ++ nl ++
  chars ("  display_name: Friendly Name") ++ nl

/-- An entity definition with internal identifier `MyKind`, the metadata
docstring, and untouched schema defaults. -/
def eMyKind : Ent :=
  { name_ := chars ("MyKind"), doc := some docMeta,
    attrs := [(chars ("name"), .vstr []), (chars ("description"), .vstr [])] }

/-- A flat `d0` entity with identifier `n` and docstring `dc`. -/
def mkFlatEnt (n dc : Str) : Ent :=
  { name_ := n, doc := some dc,
    attrs := [(chars ("name"), .vstr []), (chars ("description"), .vstr [])] }

/-- A description whose metadata tail is unparseable. -/
def badDesc : Str := chars ("before ") ++ sepString ++ nl ++ chars ("!!garbage !!") ++ nl

/-- A description carrying the marker twice, with an unparseable tail. -/
def twoMarker : Str :=
  sepString ++ chars (" mid!!garbage") ++ nl ++ sepString ++ chars (" tail!!more")

def eTwo : Ent :=
  { name_ := chars ("K"), doc := some twoMarker,
    attrs := [(chars ("name"), .vstr []), (chars ("description"), .vstr [])] }

/-- A description whose metadata tail carries both a display name and the
recovery identifier `dsl_name: MyKind`. -/
def c3desc : Str :=
  chars ("X") ++ nl ++ sepString ++ nl ++ chars ("calm_dsl_metadata:") ++ nl ++
  chars ("  display_name: Friendly Name") ++ nl ++ chars ("  dsl_name: MyKind") ++ nl

/-- A wire mapping as the platform would return it for the compiled
`MyKind` example: display name as wire name, recovery identifier in the
metadata tail. -/
def c3wire : AList Value :=
  [(chars ("name"), .vstr (chars ("Friendly Name"))),
   (chars ("description"), .vstr c3desc)]

/-- A description whose metadata `dsl_name` equals the wire name `A`. -/
def descEq : Str :=
  chars ("pre ") ++ sepString ++ nl ++ chars ("calm_dsl_metadata:") ++ nl ++
  chars ("  display_name: A") ++ nl ++ chars ("  dsl_name: A") ++ nl

/-- An empty auxiliary descriptor standing for a referenced kind. -/
def dsub : Descriptor := .mk (chars ("ref")) [] [] []

/-- Modelled from the spec: the deployment schema (supplied by the external
Schema Provider) types `packages` as an array of entity references, i.e. an
array-typed validator whose kind is an `EntityType` (which exposes
`decompile`). -/
def dPkg : Descriptor := .mk (chars ("deployment"))
  [(chars ("packages"), .entityRef dsub, true)]
  []
  [(chars ("packages"), chars ("packages"))]

/-- A service-like descriptor that also has `variables` / `actions`. -/
def dVars : Descriptor := .mk (chars ("service"))
  [(chars ("name"), .builtinStr, false), (chars ("variables"), .entityRef dsub, true),
   (chars ("actions"), .entityRef dsub, true)]
  [(chars ("name"), .vstr []), (chars ("variables"), .vlist []), (chars ("actions"), .vlist [])]
  [(chars ("name"), chars ("name")), (chars ("variables"), chars ("variables")),
   (chars ("actions"), chars ("actions"))]

/-- A Variable-capable member value. -/
def mem1 : Value :=
  .vmember { isVariable := true, isAction := false, isDescriptorInst := false,
             hasException := false, name := chars ("v1") }

def c8u1 : AList SVal := [(chars ("ENV"), .scalar mem1)]

def c8u2 : AList SVal := [(chars ("ENV2"), .scalar mem1)]

def c8r1 : Store × AList SVal :=
  ((compileGatherStore dVars c8s0 c8u1).toOption).getD (c8s0, [])

def c8r2 : Store × AList SVal :=
  ((compileGatherStore dVars c8r1.1 c8u2).toOption).getD (c8s0, [])

theorem c8_default_isolation_witness :
    (2 : Nat) ≠ (6 : Nat) ∧ c8r2.1.get 2 = c8r1.1.get 2 :=
  c8_default_isolation dVars c8s0 c8r1.1 c8r2.1 c8u1 c8u2 c8r1.2 c8r2.2 2 6
    rfl rfl rfl rfl rfl rfl

/-- The compiled wire mapping, when `compile` succeeds. -/
def compiledWire (d : Descriptor) (e : Ent) : Option (AList Value) :=
  match compile d e with
  | .ok r => some r.2
  | .error _ => none

/-- The entity produced by `decompile`, when it succeeds. -/
def decompiledEnt (d : Descriptor) (c : AList Value) : Option Ent :=
  match decompileCdict d c with
  | .ok (.ventity n dc ats, _) => some { name_ := n, doc := dc, attrs := ats }
  | _ => none

/-- `compile (decompile (compile e))`, the round trip of spec section 8. -/
def roundTripWire (d : Descriptor) (e : Ent) : Option (AList Value) :=
  (compiledWire d e).bind (fun c =>
    (decompiledEnt d c).bind (fun e2 => compiledWire d e2))

/-- The `description` wire entry, when it is a string. -/
def descStrOf (c : AList Value) : Option Str :=
  match alGet c (chars ("description")) with
  | some (.vstr s) => some s
  | _ => none

/-- The `name` wire entry, when it is a string. -/
def nameStrOf (c : AList Value) : Option Str :=
  match alGet c (chars ("name")) with
  | some (.vstr s) => some s
  | _ => none

def isVList : Value → Bool
  | .vlist _ => true
  | _ => false

def isVStrB : Value → Bool
  | .vstr _ => true
  | _ => false

/-- String-valued entries of a wire mapping or attribute dict (a decidable
projection adequate for our flat instances). -/
def strEntries (c : AList Value) : List (Str × Option Str) :=
  c.map (fun p => (p.1, match p.2 with | .vstr s => some s | _ => none))

/-! ### Claim theorems -/

/-- C10: `decompile` pops `description` from the caller's mapping and reads
`name` non-destructively: on success the mapping handed back is exactly the
input mapping with its (first) `description` entry removed, and its `name`
entry is untouched. -/
theorem c10_decompile_mutation (d : Descriptor) (cdict : AList Value)
    (res : Value × AList Value) (h : decompileCdict d cdict = .ok res) :
    res.2 = (alPop cdict (chars ("description"))).2 ∧
      alGet res.2 (chars ("name")) = alGet cdict (chars ("name")) := by
  have hname : alGet (alPop cdict (chars ("description"))).2 (chars ("name"))
      = alGet cdict (chars ("name"))  := by
    exact alGet_alPop_ne cdict (chars ("description")) (chars ("name")) (by decide)
  simp only [decompileCdict, bind, Except.bind] at h
  split at h
  · exact absurd h (by simp)
  · split at h
    · exact absurd h (by simp)
    · split at h
      · exact absurd h (by simp)
      · simp only [Except.ok.injEq] at h
        subst h
        exact ⟨rfl, hname⟩

def c10in : AList Value :=
  [(chars ("name"), .vstr (chars ("A"))),
   (chars ("description"), .vstr (chars ("hello"))),
   (chars ("uuid"), .vstr (chars ("u-1")))]

def c10res : Value × AList Value :=
  (.ventity (chars ("A")) (some (chars ("hello")))
     [(chars ("name"), .vstr (chars ("A"))), (chars ("description"), .vstr [])],
   [(chars ("name"), .vstr (chars ("A"))), (chars ("uuid"), .vstr (chars ("u-1")))])

theorem c10_decompile_mutation_witness :
    c10res.2 = (alPop c10in (chars ("description"))).2 ∧
      alGet c10res.2 (chars ("name")) = alGet c10in (chars ("name")) :=
  c10_decompile_mutation d0 c10in c10res (by
    unfold c10in c10res decompileCdict processAttrs processAttrs decompileProp
    rfl)

/-- C4: an attribute assignment whose name is neither dunder-style nor in
the kind's validator dict, with a value that is neither Variable-capable
nor Action-capable (`isinstance(type(value), DescriptorType)`), fails with
the unknown-attribute `TypeError` naming the attribute; dunder-style names
pass through unchanged. -/
theorem c4_unknown_attribute :
    (∀ (reg : Registry) (vdict : List (Str × VKind × Bool)) (n : Str) (v : Value),
      reg.variableDefined = true → reg.descriptorDefined = true →
      isDunder n = false → alGet vdict n = none →
      v.isVariableV = false → v.isDescriptorInstV = false →
      pvalidate reg vdict n v = .error (.unknownAttribute n)) ∧
    (∀ (reg : Registry) (vdict : List (Str × VKind × Bool)) (n : Str) (v : Value),
      isDunder n = true → pvalidate reg vdict n v = .ok v) := by
  constructor
  · intro reg vdict n v hr1 hr2 hd hn hv hdsc
    unfold pvalidate
    simp [hd, hn, hr1, hr2, hv, hdsc]
  · intro reg vdict n v hd
    unfold pvalidate
    simp [hd]

theorem c4_unknown_attribute_witness :
    pvalidate Registry.full d0.validators (chars ("bogus")) (.vint 3)
        = .error (.unknownAttribute (chars ("bogus"))) ∧
      pvalidate Registry.full d0.validators (chars ("__kind__")) (.vint 3)
        = .ok (.vint 3) :=
  ⟨c4_unknown_attribute.1 Registry.full d0.validators (chars ("bogus")) (.vint 3)
      rfl rfl rfl rfl rfl rfl,
   c4_unknown_attribute.2 Registry.full d0.validators (chars ("__kind__")) (.vint 3) rfl⟩

/-- C5 (amended): a metadata marker followed by an unparseable tail never
makes compile or decompile raise; the failure is logged as a warning; in
`compile` the wire `description` is left exactly as it was, but in
`decompile` the description has already been truncated at the end of the
marker before the parse (line 373), so the unparseable tail is dropped
rather than preserved. -/
theorem c5_unparseable_metadata (cdict : AList Value) (descr : Str) (nameV : Value)
    (ind : Nat) (hfind : findSub descr sepString = some ind)
    (hbad : mdDecode (descr.drop (ind + sepString.length)) = none) :
    metadataOnCompile cdict (.vstr descr) = .ok (cdict, none, true) ∧
      metadataOnDecompile (.vstr descr) nameV
        = .ok (descr.take (ind + sepString.length), nameV, true) := by
  constructor
  · simp only [metadataOnCompile, hfind, hbad]
  · simp only [metadataOnDecompile, hfind, hbad]

theorem c5_unparseable_metadata_witness :
    metadataOnCompile [] (.vstr badDesc) = .ok ([], none, true) ∧
      metadataOnDecompile (.vstr badDesc) (.vstr (chars ("A")))
        = .ok (badDesc.take (7 + sepString.length), .vstr (chars ("A")), true) :=
  c5_unparseable_metadata [] badDesc (.vstr (chars ("A"))) 7 (by decide) (by decide)

/-- C5 counterexample: the claim "the description is left unchanged" fails
for `decompile`: decompiling a wire mapping whose description is `badDesc`
(marker followed by an unparseable tail) attaches a documentation string
truncated at the end of the marker, not the original description. -/
theorem c5_decompile_truncates_counterexample :
    (match decompileCdict d0 [(chars ("name"), .vstr (chars ("A"))),
        (chars ("description"), .vstr badDesc)] with
     | .ok (.ventity _ dc _, _) => dc
     | _ => none) = some (chars ("before ") ++ sepString) ∧
      some (chars ("before ") ++ sepString) ≠ some badDesc := by
  constructor
  · unfold decompileCdict processAttrs processAttrs decompileProp
    rfl
  · decide

theorem strElemChecks_err {vs : List Value} (h : vs.all isVStrB = false) :
    strElemChecks vs = .error .typeMismatch := by
  induction vs with
  | nil => simp at h
  | cons v rest ih =>
    cases v with
    | vstr s =>
      simp only [List.all_cons, isVStrB, Bool.true_and] at h
      simp [strElemChecks, ih h, Except.map]
    | vint n => simp [strElemChecks]
    | vbool b => simp [strElemChecks]
    | vnone => simp [strElemChecks]
    | vlist xs => simp [strElemChecks]
    | vdictV fs => simp [strElemChecks]
    | vmember m => simp [strElemChecks]
    | vobjectVal fs => simp [strElemChecks]
    | vprovider w => simp [strElemChecks]
    | ventity n dc ats => simp [strElemChecks]

/-- C6 (amended): for an array-typed property, a decompile-capable
validator rejects any non-list wire value with the type-mismatch
`TypeError`; a builtin validator type-checks every element of a list value
and raises the type-mismatch `TypeError` on the first failure; but a
builtin validator applied to a *scalar* value performs no type check at
all and merely coerces via the builtin constructor (line 456); decompiling
`\x7b"packages": "not-a-list"\x7d` against the array-typed entity-reference
`packages` validator raises the type-mismatch `TypeError`. -/
theorem c6_decompile_type_checks :
    (∀ (sub : Descriptor) (v : Value), isVList v = false →
        decompileProp (.entityRef sub) true v = .error .typeMismatch) ∧
      (∀ (vs : List Value), vs.all isVStrB = false →
        decompileProp .builtinStr true (.vlist vs) = .error .typeMismatch) ∧
      (∀ (v : Value), decompileProp .builtinStr false v = .ok (.vstr (pyStrCoerce v))) ∧
      decompileCdict dPkg [(chars ("packages"), .vstr (chars ("not-a-list")))]
        = .error .typeMismatch := by
  refine ⟨?_, ?_, ?_, ?_⟩
  · intro sub v hv
    cases v
    case vlist => simp [isVList] at hv
    all_goals simp [decompileProp]
  · intro vs hv
    simp [decompileProp, pyIter, strElemChecks_err hv, Except.map]
  · intro v
    simp [decompileProp]
  · unfold decompileCdict processAttrs decompileProp
    rfl

theorem c6_decompile_type_checks_witness :
    decompileProp (.entityRef dsub) true (.vstr (chars ("not-a-list")))
        = .error .typeMismatch ∧
      decompileProp .builtinStr true (.vlist [.vint 7]) = .error .typeMismatch :=
  ⟨c6_decompile_type_checks.1 dsub (.vstr (chars ("not-a-list"))) rfl,
   c6_decompile_type_checks.2.1 [.vint 7] rfl⟩

/-- C6 counterexample: the claim says the single scalar value of a known
property is type-checked against the validator with a failing check
raising the type-mismatch error; in fact the scalar branch (line 456)
performs no `isinstance` check and coerces instead: decompiling the
integer `5` against a scalar `str`-kinded validator succeeds with `"5"`. -/
theorem c6_scalar_not_checked_counterexample :
    decompileProp .builtinStr false (.vint 5) = .ok (.vstr (chars ("5"))) := by
  unfold decompileProp
  rfl

/-- The one-occurrence argument shared by both re-encode paths: the head
kept by the rewrite is the input truncated just after its *first* marker
occurrence, so it contains the marker exactly once; if the re-encoded tail
completes no further occurrence, the result contains it exactly once. -/
theorem countSub_reencoded {descr tail : Str} {ind : Nat}
    (hfind : findSub descr sepString = some ind)
    (hcnt : countSub (sepString.drop 1 ++ tail) sepString = 0) :
    countSub (descr.take (ind + sepString.length) ++ tail) sepString = 1 := by
  obtain ⟨h1, h2⟩ := findSub_spec (by decide) hfind
  rw [h1] at h2 ⊢
  exact countSub_append_one (by decide) h2 hcnt

/-- A marker-free description makes the metadata block of `compile` a no-op. -/
theorem metadataOnCompile_no_marker (cdict : AList Value) (descr : Str)
    (hfind : findSub descr sepString = none) :
    metadataOnCompile cdict (.vstr descr) = .ok (cdict, none, false) := by
  simp only [metadataOnCompile, hfind]

/-- A marker-free description makes the metadata block of `decompile` a no-op. -/
theorem metadataOnDecompile_no_marker (descr : Str) (nameV : Value)
    (hfind : findSub descr sepString = none) :
    metadataOnDecompile (.vstr descr) nameV = .ok (descr, nameV, false) := by
  simp only [metadataOnDecompile, hfind]

/-- C2: when the compiled description carries the metadata marker and the
parsed record's `display_name` is a (non-empty) name different from the
(non-empty) compiled wire `name`, `compile` overwrites the wire `name`
with `display_name`, updates the definition's own identifier
(`cls.__name__`, returned here as the new-name component) to
`display_name`, and re-encodes the metadata with the original compiled
name stored under `dsl_name`; concretely, the spec's `MyKind` example
compiles to wire name `"Friendly Name"` with `dsl_name: MyKind` embedded
in the re-encoded tail, and decompiling that wire mapping restores the
internal identifier `MyKind`. -/
theorem c2_display_name_override :
    (∀ (cdict : AList Value) (descr : Str) (ind : Nat) (md : MetaRec) (dn n : Str),
      findSub descr sepString = some ind →
      mdDecode (descr.drop (ind + sepString.length)) = some md →
      md.display_name = some dn → dn ≠ [] →
      alGet cdict (chars ("name")) = some (.vstr n) → n ≠ [] → dn ≠ n →
      metadataOnCompile cdict (.vstr descr)
        = .ok (alSet (alSet cdict (chars ("name")) (.vstr dn)) (chars ("description"))
              (.vstr (descr.take (ind + sepString.length) ++ nl
                 ++ mdEncode { md with dsl_name := some n })),
             some dn, false)) ∧
    ((compile d0 eMyKind).map (fun r => r.1.name_) = .ok (chars ("Friendly Name"))) ∧
    ((compiledWire d0 eMyKind).bind nameStrOf = some (chars ("Friendly Name"))) ∧
    ((compiledWire d0 eMyKind).bind descStrOf
        = some (chars ("X") ++ nl ++ sepString ++ nl
            ++ mdEncode { display_name := some (chars ("Friendly Name")),
                          dsl_name := some (chars ("MyKind")) })) ∧
    (((compiledWire d0 eMyKind).bind (fun c => decompiledEnt d0 c)).map (fun e => e.name_)
        = some (chars ("MyKind"))) := by
  refine ⟨?_, rfl, rfl, rfl, ?_⟩
  · intro cdict descr ind md dn n hfind hdec hdisp hdn hget hn hne
    have hne2 : ¬ (n = dn) := fun he => hne he.symm
    have hov : mdOverrideHappens md (some (.vstr n)) = true := by
      simp [mdOverrideHappens, hdisp, isTruthy, eqStr, hn, hdn, hne2]
    simp only [metadataOnCompile, hfind, hdec, hov, hget, hdisp, if_true,
      compileMdStored, pyStrCoerce, Option.getD_some]
  · unfold decompiledEnt decompileCdict processAttrs processAttrs decompileProp
    rfl

theorem c2_display_name_override_witness :
    metadataOnCompile [(chars ("name"), .vstr (chars ("MyKind")))] (.vstr docMeta)
      = .ok (alSet (alSet [(chars ("name"), .vstr (chars ("MyKind")))]
              (chars ("name")) (.vstr (chars ("Friendly Name")))) (chars ("description"))
            (.vstr (docMeta.take (2 + sepString.length) ++ nl
               ++ mdEncode { display_name := some (chars ("Friendly Name")),
                             dsl_name := some (chars ("MyKind")) })),
           some (chars ("Friendly Name")), false) :=
  c2_display_name_override.1 [(chars ("name"), .vstr (chars ("MyKind")))] docMeta 2
    { display_name := some (chars ("Friendly Name")), dsl_name := none }
    (chars ("Friendly Name")) (chars ("MyKind"))
    (by decide) (by decide) rfl (by decide) rfl (by decide) (by decide)

/-- C3 (amended): during decompile, a metadata tail carrying a non-empty
recovery identifier `dsl_name` *different from the wire name* makes that
identifier the new name (the created class name is its coercion through
`get_valid_identifier`), and the `dsl_name` key is removed before the tail
is re-encoded into the description; when `dsl_name` equals the wire name
the identifier is (trivially) kept but the key is *not* removed. -/
theorem c3_dsl_name_recovery :
    (∀ (descr : Str) (nameV : Value) (ind : Nat) (md : MetaRec) (s : Str),
      findSub descr sepString = some ind →
      mdDecode (descr.drop (ind + sepString.length)) = some md →
      md.dsl_name = some s → s ≠ [] → eqStr nameV s = false →
      metadataOnDecompile (.vstr descr) nameV
        = .ok (descr.take (ind + sepString.length) ++ nl
              ++ mdEncode { md with dsl_name := none },
            .vstr s, false)) ∧
    ((decompiledEnt d0 c3wire).map (fun e => e.name_)
        = some (getValidIdentifier (chars ("MyKind")))) := by
  constructor
  · intro descr nameV ind md s hfind hdec hdsl hs hne
    have hrec : dslRecoveryHappens md nameV = true := by
      simp [dslRecoveryHappens, hdsl, hs, hne]
    simp only [metadataOnDecompile, hfind, hdec, hrec, if_true, decompileMdStored,
      hdsl, Option.getD_some]
  · unfold decompiledEnt decompileCdict processAttrs processAttrs decompileProp
    rfl

theorem c3_dsl_name_recovery_witness :
    metadataOnDecompile (.vstr c3desc) (.vstr (chars ("Friendly Name")))
      = .ok (c3desc.take (2 + sepString.length) ++ nl
            ++ mdEncode { display_name := some (chars ("Friendly Name")), dsl_name := none },
          .vstr (chars ("MyKind")), false) :=
  c3_dsl_name_recovery.1 c3desc (.vstr (chars ("Friendly Name"))) 2
    { display_name := some (chars ("Friendly Name")), dsl_name := some (chars ("MyKind")) }
    (chars ("MyKind")) (by decide) (by decide) rfl (by decide) (by decide)

/-- C3 counterexample: the claim says the `dsl_name` key is removed from
the metadata whenever the tail carries it; but when the recovery
identifier equals the wire name (`dsl_name: A` with wire name `"A"`), the
pop on line 391 is skipped and the re-encoded tail still carries
`dsl_name: A`. -/
theorem c3_equal_dsl_name_kept_counterexample :
    metadataOnDecompile (.vstr descEq) (.vstr (chars ("A")))
      = .ok (chars ("pre ") ++ sepString ++ nl
            ++ mdEncode { display_name := some (chars ("A")),
                          dsl_name := some (chars ("A")) },
          .vstr (chars ("A")), false) := by
  rfl


theorem alGet_append_mid_ne {β : Type} (A B : AList β) (k key : Str) (v : β)
    (h : k ≠ key) :
    alGet (A ++ (k, v) :: B) key = alGet (A ++ B) key := by
  induction A with
  | nil => simp [alGet, h]
  | cons p rest ih =>
    obtain ⟨k2, w⟩ := p
    simp only [List.cons_append, alGet]
    by_cases h2 : k2 = key
    · simp [h2]
    · simp [h2, ih]

theorem alPop_fst_mid {β : Type} (A B : AList β) (k key : Str) (v : β)
    (h : k ≠ key) :
    (alPop (A ++ (k, v) :: B) key).1 = (alPop (A ++ B) key).1 := by
  induction A with
  | nil => simp [alPop, h]
  | cons p rest ih =>
    obtain ⟨k2, w⟩ := p
    simp only [List.cons_append, alPop]
    by_cases h2 : k2 = key
    · simp [h2]
    · simp [h2, ih]

theorem alPop_snd_mid {β : Type} (A B : AList β) (k key : Str) (v : β)
    (h : k ≠ key) :
    ∃ X Y, (alPop (A ++ (k, v) :: B) key).2 = X ++ (k, v) :: Y ∧
      (alPop (A ++ B) key).2 = X ++ Y := by
  induction A with
  | nil =>
    refine ⟨[], (alPop B key).2, ?_, ?_⟩
    · simp [alPop, h]
    · simp
  | cons p rest ih =>
    obtain ⟨k2, w⟩ := p
    by_cases h2 : k2 = key
    · exact ⟨rest, B, by simp [alPop, h2], by simp [alPop, h2]⟩
    · obtain ⟨X, Y, hx1, hx2⟩ := ih
      exact ⟨(k2, w) :: X, Y, by simp [alPop, h2, hx1], by simp [alPop, h2, hx2]⟩

theorem attrsLoop_skip (inv : List (Str × Str)) (k : Str) (v : Value)
    (hinv : alGet inv k = none) :
    ∀ (X Y acc : AList Value),
      attrsLoop inv (X ++ (k, v) :: Y) acc = attrsLoop inv (X ++ Y) acc := by
  intro X
  induction X with
  | nil =>
    intro Y acc
    simp [attrsLoop, hinv]
  | cons p rest ih =>
    intro Y acc
    obtain ⟨k2, w⟩ := p
    simp only [List.cons_append, attrsLoop]
    cases hm : alGet inv k2 with
    | none => exact ih Y acc
    | some m =>
      by_cases hme : m.isEmpty
      · simp [hme, ih]
      · simp [hme, ih]

/-- C7: a wire key with no inverse entry in the display map is silently
dropped: `decompile` produces the same entity definition with or without
that entry (so unknown or extra wire fields such as `uuid` are never
errors), and concretely the definition decompiled from a mapping carrying
`uuid` has no `uuid` attribute. -/
theorem c7_unknown_wire_keys_dropped :
    (∀ (d : Descriptor) (A B : AList Value) (k : Str) (v : Value),
      alGet (invertMap d.displayMap) k = none →
      k ≠ chars ("name") → k ≠ chars ("description") →
      (decompileCdict d (A ++ (k, v) :: B)).map Prod.fst
        = (decompileCdict d (A ++ B)).map Prod.fst) ∧
    ((decompiledEnt d0 [(chars ("name"), .vstr (chars ("A"))),
        (chars ("uuid"), .vstr (chars ("abc-123")))]).map
       (fun e => (e.name_, strEntries e.attrs))
      = some (chars ("A"),
          [(chars ("name"), some (chars ("A"))),
           (chars ("description"), some [])])) := by
  constructor
  · intro d A B k v hinv hk1 hk2
    have hname := alGet_append_mid_ne A B k (chars ("name")) v hk1
    have hpop1 := alPop_fst_mid A B k (chars ("description")) v hk2
    obtain ⟨X, Y, hXY1, hXY2⟩ := alPop_snd_mid A B k (chars ("description")) v hk2
    have hloop : attrsLoop (invertMap d.displayMap)
          (alPop (A ++ (k, v) :: B) (chars ("description"))).2 []
        = attrsLoop (invertMap d.displayMap)
          (alPop (A ++ B) (chars ("description"))).2 [] := by
      rw [hXY1, hXY2, attrsLoop_skip _ _ _ hinv]
    simp only [decompileCdict, hname, hpop1, hloop, bind, Except.bind]
    cases hdp : descrNamePhase (alPop (A ++ B) (chars ("description"))).1
        ((alGet (A ++ B) (chars ("name"))).getD (.vstr d.schemaName)) with
    | error e => simp [Except.map]
    | ok pr =>
      cases hpa : processAttrs d (attrsLoop (invertMap d.displayMap)
          (alPop (A ++ B) (chars ("description"))).2 []) with
      | error e => simp [Except.map]
      | ok ats =>
        cases hmk2 : mkEnt d (getValidIdentifier (pyStrCoerce pr.2)) ats pr.1 with
        | error e => simp [hmk2, Except.map]
        | ok cls => simp [hmk2, Except.map]
  · unfold decompiledEnt decompileCdict processAttrs processAttrs decompileProp
    rfl

theorem c7_unknown_wire_keys_dropped_witness :
    (decompileCdict d0 [(chars ("name"), .vstr (chars ("A"))),
        (chars ("uuid"), .vstr (chars ("u")))]).map Prod.fst
      = (decompileCdict d0 [(chars ("name"), .vstr (chars ("A")))]).map Prod.fst :=
  c7_unknown_wire_keys_dropped.1 d0 [(chars ("name"), .vstr (chars ("A")))] []
    (chars ("uuid")) (.vstr (chars ("u"))) rfl (by decide) (by decide)

/-- C9 (amended): the code does not enforce the at-most-once marker
invariant in general — a description whose metadata tail fails to parse is
passed through `compile` with all its marker occurrences (see the
counterexample) — but whenever the tail parses and the re-encoded metadata
completes no new occurrence of the marker past the first character of the
retained one, the rewritten description (in `compile` and in `decompile`)
contains the marker exactly once. -/
theorem c9_marker_at_most_once :
    (∀ (cdict c2 : AList Value) (descr s : Str) (ind : Nat) (md : MetaRec)
       (nn : Option Str) (w : Bool),
      findSub descr sepString = some ind →
      mdDecode (descr.drop (ind + sepString.length)) = some md →
      countSub (sepString.drop 1
          ++ (nl ++ mdEncode (compileMdStored md (alGet cdict (chars ("name"))))))
        sepString = 0 →
      metadataOnCompile cdict (.vstr descr) = .ok (c2, nn, w) →
      descStrOf c2 = some s →
      countSub s sepString = 1) ∧
    (∀ (descr d2 : Str) (nameV nv2 : Value) (ind : Nat) (md : MetaRec) (w : Bool),
      findSub descr sepString = some ind →
      mdDecode (descr.drop (ind + sepString.length)) = some md →
      countSub (sepString.drop 1 ++ (nl ++ mdEncode (decompileMdStored md nameV)))
        sepString = 0 →
      metadataOnDecompile (.vstr descr) nameV = .ok (d2, nv2, w) →
      countSub d2 sepString = 1) := by
  constructor
  · intro cdict c2 descr s ind md nn w hfind hdec hcnt hrun hs
    simp only [metadataOnCompile, hfind, hdec, Except.ok.injEq, Prod.mk.injEq] at hrun
    obtain ⟨hc2, _, _⟩ := hrun
    subst hc2
    simp only [descStrOf, alGet_alSet_same, Option.some.injEq] at hs
    subst hs
    have := countSub_reencoded hfind hcnt
    simpa [List.append_assoc] using this
  · intro descr d2 nameV nv2 ind md w hfind hdec hcnt hrun
    simp only [metadataOnDecompile, hfind, hdec, Except.ok.injEq, Prod.mk.injEq] at hrun
    obtain ⟨hd2, _, _⟩ := hrun
    subst hd2
    have := countSub_reencoded hfind hcnt
    simpa [List.append_assoc] using this

def c9md : MetaRec := { display_name := some (chars ("Friendly Name")), dsl_name := none }

def c9s : Str := docMeta.take (2 + sepString.length) ++ nl ++ mdEncode c9md

theorem c9_marker_at_most_once_witness : countSub c9s sepString = 1 :=
  c9_marker_at_most_once.1 [] [(chars ("description"), .vstr c9s)] docMeta c9s 2 c9md
    none false (by decide) (by decide) (by decide) rfl rfl

/-- C9 counterexample: the claim says the marker never appears twice in a
description produced by compile; but compiling a definition whose
docstring holds the marker twice with an unparseable tail passes the
description through unchanged, and the compiled description contains the
marker twice. -/
theorem c9_marker_twice_counterexample :
    ((compiledWire d0 eTwo).bind descStrOf).map (fun s => countSub s sepString)
      = some 2 := rfl

/-- C1 (amended): the compile-decompile-compile round trip is a fixed
point after one pass for flat definitions whose description carries no
metadata marker and whose identifier is already a valid identifier; when
the description carries metadata whose `display_name` differs from the
compiled name, one pass is *not* a fixed point (the `dsl_name` recovery
key embedded by the first compile is dropped by the round trip, see the
counterexample). -/
theorem c1_roundtrip_fixed_point_no_marker (n dc : Str)
    (hfind : findSub dc sepString = none)
    (hvalid : getValidIdentifier n = n) :
    roundTripWire d0 (mkFlatEnt n dc) = compiledWire d0 (mkFlatEnt n dc) ∧
      compiledWire d0 (mkFlatEnt n dc)
        = some [(chars ("name"), .vstr n), (chars ("description"), .vstr dc)] := by
  have hn : n ≠ [] := by
    intro he
    subst he
    exact absurd hvalid (by decide)
  -- first compile
  have hc1 : compile d0 (mkFlatEnt n dc)
      = .ok (mkFlatEnt n dc,
             [(chars ("name"), Value.vstr n), (chars ("description"), Value.vstr dc)]) := by
    have hmc := metadataOnCompile_no_marker
      [(chars ("name"), Value.vstr n), (chars ("description"), Value.vstr dc)] dc hfind
    calc compile d0 (mkFlatEnt n dc)
        = Except.bind (metadataOnCompile
              [(chars ("name"), Value.vstr n), (chars ("description"), Value.vstr dc)]
              (Value.vstr dc))
            (fun x => Except.ok ((match x.2.1 with
                | some s => { name_ := s, doc := some dc,
                              attrs := [(chars ("name"), Value.vstr []),
                                        (chars ("description"), Value.vstr [])] }
                | none => mkFlatEnt n dc), x.1)) := rfl
      _ = .ok (mkFlatEnt n dc,
             [(chars ("name"), Value.vstr n), (chars ("description"), Value.vstr dc)]) := by
          rw [hmc]
          rfl
  -- decompile
  have hd1 : descrNamePhase (some (Value.vstr dc)) (Value.vstr n)
      = .ok (some dc, Value.vstr n) := by
    simp only [descrNamePhase, metadataOnDecompile_no_marker dc (Value.vstr n) hfind,
      Except.map]
  have hvd : alGet d0.validators (chars ("name")) = some (.builtinStr, false) := rfl
  have hpa : processAttrs d0 [(chars ("name"), Value.vstr n)]
      = .ok [(chars ("name"), Value.vstr n)] := by
    simp only [processAttrs, hvd, decompileProp, Bool.false_eq_true, if_false,
      pyStrCoerce, Except.bind]
    rfl
  have hget : alGet [(chars ("name"), Value.vstr n), (chars ("description"), Value.vstr dc)]
      (chars ("name")) = some (Value.vstr n) := rfl
  have hpop : alPop [(chars ("name"), Value.vstr n), (chars ("description"), Value.vstr dc)]
      (chars ("description")) = (some (Value.vstr dc), [(chars ("name"), Value.vstr n)]) := rfl
  have hloop : attrsLoop (invertMap d0.displayMap) [(chars ("name"), Value.vstr n)] []
      = [(chars ("name"), Value.vstr n)] := rfl
  have hmk : mkEnt d0 n [(chars ("name"), Value.vstr n)] (some dc)
      = .ok (.ventity n (some dc)
          [(chars ("name"), Value.vstr n), (chars ("description"), Value.vstr [])]) := rfl
  have hpy : pyStrCoerce (Value.vstr n) = n := rfl
  have hdec : decompileCdict d0
      [(chars ("name"), Value.vstr n), (chars ("description"), Value.vstr dc)]
      = .ok (.ventity n (some dc)
          [(chars ("name"), Value.vstr n), (chars ("description"), Value.vstr [])],
        [(chars ("name"), Value.vstr n)]) := by
    simp only [decompileCdict, hget, hpop, Option.getD_some, hd1, hloop, hpa, hmk, hpy,
      hvalid, bind, Except.bind]
  -- second compile
  have hall : getAllAttrs d0
      ⟨n, some dc, [(chars ("name"), Value.vstr n), (chars ("description"), Value.vstr [])]⟩
      = [(chars ("name"), Value.vstr n), (chars ("description"), Value.vstr [])] := rfl
  have hupd : updateAttrs d0
      [(chars ("name"), Value.vstr n), (chars ("description"), Value.vstr [])]
      = .ok [(chars ("name"), Value.vstr n), (chars ("description"), Value.vstr [])] := rfl
  have hbc : buildCdict d0.displayMap
      [(chars ("name"), Value.vstr n), (chars ("description"), Value.vstr [])]
      = .ok [(chars ("name"), Value.vstr n), (chars ("description"), Value.vstr [])] := rfl
  have heqn : eqStr (Value.vstr n) [] = false := by
    simp [eqStr, hn]
  have hget2 : alGet [(chars ("name"), Value.vstr n), (chars ("description"), Value.vstr [])]
      (chars ("name")) = some (Value.vstr n) := rfl
  have ha : applyNameDefault
      ⟨n, some dc, [(chars ("name"), Value.vstr n), (chars ("description"), Value.vstr [])]⟩
      [(chars ("name"), Value.vstr n), (chars ("description"), Value.vstr [])]
      = [(chars ("name"), Value.vstr n), (chars ("description"), Value.vstr [])] := by
    simp only [applyNameDefault, hget2, heqn, Bool.false_eq_true, if_false]
  have had : applyDescDefault
      ⟨n, some dc, [(chars ("name"), Value.vstr n), (chars ("description"), Value.vstr [])]⟩
      [(chars ("name"), Value.vstr n), (chars ("description"), Value.vstr [])]
      = [(chars ("name"), Value.vstr n), (chars ("description"), Value.vstr dc)] := rfl
  have hgd : alGet [(chars ("name"), Value.vstr n), (chars ("description"), Value.vstr dc)]
      (chars ("description")) = some (Value.vstr dc) := rfl
  have hmc2 := metadataOnCompile_no_marker
    [(chars ("name"), Value.vstr n), (chars ("description"), Value.vstr dc)] dc hfind
  have hc2 : compile d0
      ⟨n, some dc, [(chars ("name"), Value.vstr n), (chars ("description"), Value.vstr [])]⟩
      = .ok (⟨n, some dc,
            [(chars ("name"), Value.vstr n), (chars ("description"), Value.vstr [])]⟩,
          [(chars ("name"), Value.vstr n), (chars ("description"), Value.vstr dc)]) := by
    simp only [compile, hall, hupd, hbc, ha, had, hgd, hmc2, bind, Except.bind]
  -- assemble
  have hcw : compiledWire d0 (mkFlatEnt n dc)
      = some [(chars ("name"), Value.vstr n), (chars ("description"), Value.vstr dc)] := by
    simp only [compiledWire, hc1]
  refine ⟨?_, hcw⟩
  simp only [roundTripWire, compiledWire, decompiledEnt, hc1, hdec, hc2, Option.some_bind]

theorem c1_roundtrip_fixed_point_witness :
    roundTripWire d0 (mkFlatEnt (chars ("MyKind")) (chars ("hello")))
        = compiledWire d0 (mkFlatEnt (chars ("MyKind")) (chars ("hello"))) ∧
      compiledWire d0 (mkFlatEnt (chars ("MyKind")) (chars ("hello")))
        = some [(chars ("name"), .vstr (chars ("MyKind"))),
                (chars ("description"), .vstr (chars ("hello")))] :=
  c1_roundtrip_fixed_point_no_marker (chars ("MyKind")) (chars ("hello"))
    (by decide) (by decide)

/-- C1 counterexample: for the `MyKind` definition with a
`display_name: Friendly Name` metadata tail, `compile` embeds
`dsl_name: MyKind` into the compiled description, but `decompile` removes
that key and the second `compile` (whose compiled name now equals the
display name) does not re-add it — so
`compile (decompile (compile e)) ≠ compile e`: the round trip is not a
fixed point after one pass. -/
theorem c1_roundtrip_counterexample :
    roundTripWire d0 eMyKind ≠ compiledWire d0 eMyKind := by
  have hL : (roundTripWire d0 eMyKind).bind descStrOf
      = some (chars ("X") ++ nl ++ sepString ++ nl
          ++ mdEncode { display_name := some (chars ("Friendly Name")), dsl_name := none }) := by
    unfold roundTripWire compiledWire decompiledEnt decompileCdict processAttrs
      processAttrs decompileProp
    rfl
  have hR : (compiledWire d0 eMyKind).bind descStrOf
      = some (chars ("X") ++ nl ++ sepString ++ nl
          ++ mdEncode { display_name := some (chars ("Friendly Name")),
                        dsl_name := some (chars ("MyKind")) }) := rfl
  intro h
  have h2 := congrArg (fun o => o.bind descStrOf) h
  simp only at h2
  rw [hL, hR] at h2
  exact absurd (Option.some.inj h2) (by decide)

end CalmDsl
